import Mathlib

/-!
# Verification of the scalpel-ts selection and extraction engine

This file gives a shallow embedding of the core of the scalpel-ts HTML
scraping library and proves properties of it:

* the HTML token model (`Internal/Html/Tokenizer.ts`),
* the tag annotator (`Internal/Tag/TagInfo.ts`),
* the tag forest builder (`Internal/Tag/TagForest.ts`),
* the selector matcher (`Select.ts`),
* the scraper combinators (`Scraper.ts`), and
* the serial scraper (`SerialScraper.ts` together with `Internal/StateOption.ts`
  and the list zipper it is built on).

Pure TypeScript functions become Lean functions; the `State` and
`StateOption` monads become explicit state passing; `Option` stays
`Option`. JavaScript numbers that are used as indices are modelled as
`Nat`; the depth setting of a selector, which is an arbitrary integer
supplied by the caller, is modelled as `Int`.
-/

namespace Scalpel

/-- An HTML attribute: a key/value pair of strings
(`Internal/Html/Tokenizer.ts`). -/
structure Attribute where
  key : String
  value : String
  deriving Repr, DecidableEq

/-- The lexed HTML token model of `Internal/Html/Tokenizer.ts`:
`TagOpen`, `TagClose`, `Text` and `Comment`. -/
inductive Token where
  | tagOpen (name : String) (attributes : List Attribute)
  | tagClose (name : String)
  | text (s : String)
  | comment (s : String)
  deriving Repr, DecidableEq

/-- A token together with the optional offset to the token holding its
closing tag (`Internal/Tag/TagInfo.ts`).  The offset produced by the
annotator is the difference between two indices of the token stream, so it
is modelled as a `Nat`. -/
structure TagInfo where
  token : Token
  closeOffset : Option Nat
  deriving Repr, DecidableEq

/-- A token paired with its index in the stream (internal to
`annotateTags`). -/
structure IndexedToken where
  index : Nat
  token : Token
  deriving Repr, DecidableEq

/-- A `TagInfo` paired with the index it belongs to (internal to
`annotateTags`). -/
structure IndexedTagInfo where
  index : Nat
  info : TagInfo
  deriving Repr, DecidableEq

/-- The map from tag name to the stack of opened-but-unclosed tags of that
name.  A JavaScript `Map` keeps its entries in insertion order, so it is
modelled as an association list: a fresh key is appended at the end, an
update rewrites the entry in place. -/
abbrev TagMap := List (String × List IndexedToken)

/-- Lookup in a `TagMap` (the first entry with the given key, as
`ReadonlyMap.lookup`). -/
def lookupTag (key : String) : TagMap → Option (List IndexedToken)
  | [] => none
  | (k, v) :: rest => if k = key then some v else lookupTag key rest

/-- Replace the value stored at the first occurrence of `key`
(`ReadonlyMap.updateAt`; the iteration position of the entry is kept). -/
def updateTag (key : String) (v : List IndexedToken) : TagMap → TagMap
  | [] => []
  | (k, w) :: rest =>
    if k = key then (k, v) :: rest else (k, w) :: updateTag key v rest

/-- `alterMap` of `Internal/Tag/TagInfo.ts`: alter the value at `key`, or
its absence.  When the key is absent and `f none` produces a value, the
new entry is appended (JavaScript `Map.set` appends fresh keys); when the
key is present and `f (some v)` produces a value, the entry is updated in
place; otherwise the map is unchanged. -/
def alterMap (key : String) (f : Option (List IndexedToken) → Option (List IndexedToken))
    (m : TagMap) : TagMap :=
  match lookupTag key m with
  | none =>
    match f none with
    | some a => m ++ [(key, a)]
    | none => m
  | some a =>
    match f (some a) with
    | some b => updateTag key b m
    | none => m

/-- `appendToken`: push an `IndexedToken` onto the stack stored at a key
(the stack grows at the front, as `ReadonlyArray.cons`). -/
def appendToken (x : IndexedToken) :
    Option (List IndexedToken) → Option (List IndexedToken)
  | none => some [x]
  | some xs => some (x :: xs)

/-- `popToken`: drop the top of the stack stored at a key.
`ReadonlyArray.tail` of an empty array is `none`, in which case `alterMap`
leaves the map unchanged. -/
def popToken : Option (List IndexedToken) → Option (List IndexedToken)
  | none => none
  | some [] => none
  | some (_ :: xs) => some xs

/-- `calculateOffset` of `Internal/Tag/TagInfo.ts`: annotate the opening
token `e` with the offset to the closing token `s` (`s.index − e.index`). -/
def calculateOffset (s e : IndexedToken) : IndexedTagInfo :=
  ⟨e.index, ⟨e.token, some (s.index - e.index)⟩⟩

/-- One step of the annotator (`toIndexedTagInfo`): given the index and
token under scrutiny and the tag map, produce the emitted `IndexedTagInfo`
values and the updated map.

* a `TagOpen` is pushed on its name's stack and emits nothing;
* a `TagClose` pops its name's stack; it emits itself without an offset
  plus, when an opener was popped, that opener annotated with the offset;
* `Text` and `Comment` emit themselves without an offset. -/
def toIndexedTagInfo (index : Nat) (token : Token) (m : TagMap) :
    List IndexedTagInfo × TagMap :=
  match token with
  | .tagOpen name _ =>
    ([], alterMap name (appendToken ⟨index, token⟩) m)
  | .tagClose name =>
    let closer : IndexedToken := ⟨index, token⟩
    let emitted : List IndexedTagInfo :=
      ⟨index, ⟨token, none⟩⟩ ::
        (match (lookupTag name m).bind List.head? with
          | some opener => [calculateOffset closer opener]
          | none => [])
    (emitted, alterMap name popToken m)
  | .text _ => ([⟨index, ⟨token, none⟩⟩], m)
  | .comment _ => ([⟨index, ⟨token, none⟩⟩], m)

/-- The state traversal of `annotateTags` (`traverseStateWithIndex`
composed with `ReadonlyArray.flatten`): walk the tokens in order starting
at `index`, threading the tag map and concatenating the emitted values. -/
def annotateLoop : List Token → Nat → TagMap → List IndexedTagInfo × TagMap
  | [], _, m => ([], m)
  | t :: ts, index, m =>
    let step := toIndexedTagInfo index t m
    let rest := annotateLoop ts (index + 1) step.2
    (step.1 ++ rest.1, rest.2)

/-- Lexicographic comparison of token stacks by index, the order
`ReadonlyArray.getOrd(ordNumber contramap index)` used by
`ReadonlyMap.values` in `toRemaining`. -/
def stackLe : List IndexedToken → List IndexedToken → Prop
  | [], _ => True
  | _ :: _, [] => False
  | x :: xs, y :: ys =>
    x.index < y.index ∨ (x.index = y.index ∧ stackLe xs ys)

instance : DecidableRel stackLe := by
  intro a
  induction a with
  | nil => intro b; exact isTrue trivial
  | cons x xs ih =>
    intro b
    cases b with
    | nil => exact isFalse id
    | cons y ys =>
      have : Decidable (stackLe xs ys) := ih ys
      simp only [stackLe]
      infer_instance

/-- `toRemaining` of `Internal/Tag/TagInfo.ts`: collect the values of the
final map (sorted by the lexicographic order on indices, as
`ReadonlyMap.values`), flatten them, and emit each leftover opener with no
offset. -/
def toRemaining (m : TagMap) : List IndexedTagInfo :=
  (((m.map Prod.snd).insertionSort stackLe).flatten).map
    (fun it => ⟨it.index, ⟨it.token, none⟩⟩)

/-- The order used for the final sort of `annotateTags`
(`ordIndexedTagInfo`: by index). -/
def leIdx (a b : IndexedTagInfo) : Prop := a.index ≤ b.index

instance : DecidableRel leIdx := fun a b => Nat.decLe a.index b.index

instance : IsTotal IndexedTagInfo leIdx := ⟨fun a b => Nat.le_total a.index b.index⟩

instance : IsTrans IndexedTagInfo leIdx := ⟨fun _ _ _ h h' => Nat.le_trans h h'⟩

/-- `annotateTags` of `Internal/Tag/TagInfo.ts`: run the annotation
traversal from an empty map, append the leftover unclosed tags, sort
everything by index and strip the indices. -/
def annotateTags (tokens : List Token) : List TagInfo :=
  let result := annotateLoop tokens 0 []
  ((result.1 ++ toRemaining result.2).insertionSort leIdx).map (·.info)

example :
    annotateTags [.tagOpen "a" [], .text "1", .tagClose "a"] =
      [⟨.tagOpen "a" [], some 2⟩, ⟨.text "1", none⟩, ⟨.tagClose "a", none⟩] := by
  decide

example :
    annotateTags [.tagOpen "b" [], .tagOpen "c" [], .tagClose "b", .tagClose "c"] =
      [⟨.tagOpen "b" [], some 2⟩, ⟨.tagOpen "c" [], some 2⟩,
        ⟨.tagClose "b", none⟩, ⟨.tagClose "c", none⟩] := by
  decide

/-!
## Correctness of the annotator

The proofs track the indices stored in the tag map as a multiset and show
that, together with the indices already emitted, they always form the range
of positions walked so far.
-/

/-- All indices stored in the stacks of a `TagMap`, in iteration order. -/
def idxList (m : TagMap) : List Nat :=
  (m.map (fun p => p.2.map (·.index))).flatten

/-- Well-formedness of the tag map after the first `i` tokens have been
walked: every stacked token is an opener of the key it is stored under,
sits at an index below `i`, and is the token of the stream at that index. -/
def StackOk (ts : List Token) (i : Nat) (m : TagMap) : Prop :=
  ∀ p ∈ m, ∀ it ∈ p.2,
    it.index < i ∧ ts[it.index]? = some it.token ∧
      ∃ attrs, it.token = Token.tagOpen p.1 attrs

/-- Well-formedness of an emitted `IndexedTagInfo`: it carries the token of
the stream at its index, and a close offset `k` only when the token is an
opener whose matching closer — a `TagClose` of the same name — sits `k`
positions later. -/
def OutOk (ts : List Token) (o : IndexedTagInfo) : Prop :=
  ts[o.index]? = some o.info.token ∧
    ∀ k, o.info.closeOffset = some k →
      0 < k ∧ ∃ nm attrs, o.info.token = Token.tagOpen nm attrs ∧
        ts[o.index + k]? = some (Token.tagClose nm)

theorem lookupTag_mem {key : String} {m : TagMap} {a : List IndexedToken}
    (h : lookupTag key m = some a) : (key, a) ∈ m := by
  induction m with
  | nil => simp [lookupTag] at h
  | cons q rest ih =>
    obtain ⟨k, w⟩ := q
    by_cases hk : k = key
    · simp only [lookupTag, hk, if_pos] at h
      cases h
      subst hk
      exact List.mem_cons_self _ _
    · simp only [lookupTag, hk, if_false] at h
      exact List.mem_cons_of_mem _ (ih h)

theorem idxList_append (m₁ m₂ : TagMap) :
    idxList (m₁ ++ m₂) = idxList m₁ ++ idxList m₂ := by
  simp [idxList]

theorem idxList_cons (k : String) (w : List IndexedToken) (rest : TagMap) :
    idxList ((k, w) :: rest) = w.map (·.index) ++ idxList rest := by
  simp [idxList]

theorem idxList_updateTag {key : String} {m : TagMap} {a : List IndexedToken}
    (v : List IndexedToken) (h : lookupTag key m = some a) :
    (idxList (updateTag key v m) : Multiset Nat) + ↑(a.map (·.index)) =
      ↑(v.map (·.index)) + (idxList m : Multiset Nat) := by
  induction m with
  | nil => simp [lookupTag] at h
  | cons q rest ih =>
    obtain ⟨k, w⟩ := q
    by_cases hk : k = key
    · simp only [lookupTag, hk, if_pos] at h
      cases h
      simp only [updateTag, hk, if_pos, idxList_cons]
      simp only [← Multiset.coe_add]
      abel
    · simp only [lookupTag, hk, if_false] at h
      simp only [updateTag, hk, if_false, idxList_cons]
      simp only [← Multiset.coe_add]
      rw [add_assoc, ih h]
      abel

theorem idxList_alter_append (key : String) (x : IndexedToken) (m : TagMap) :
    (idxList (alterMap key (appendToken x) m) : Multiset Nat) =
      x.index ::ₘ (idxList m : Multiset Nat) := by
  unfold alterMap
  cases h : lookupTag key m with
  | none =>
    simp only [appendToken]
    rw [idxList_append]
    simp only [idxList, List.map_cons, List.map_nil, List.flatten_cons,
      List.flatten_nil, List.append_nil, ← Multiset.coe_add,
      ← Multiset.singleton_add]
    abel
  | some a =>
    simp only [appendToken]
    have h2 := idxList_updateTag (x :: a) h
    apply add_right_cancel (b := (↑(a.map (·.index)) : Multiset Nat))
    rw [h2]
    simp only [List.map_cons, ← Multiset.cons_coe, ← Multiset.singleton_add]
    abel

theorem idxList_alter_pop {key : String} {m : TagMap} {opener : IndexedToken}
    (h : (lookupTag key m).bind List.head? = some opener) :
    (idxList m : Multiset Nat) =
      opener.index ::ₘ (idxList (alterMap key popToken m) : Multiset Nat) := by
  rw [Option.bind_eq_some] at h
  obtain ⟨a, hlook, hhead⟩ := h
  obtain ⟨a', rfl⟩ : ∃ a', a = opener :: a' := by
    cases a with
    | nil => simp at hhead
    | cons y ys => simp at hhead; exact ⟨ys, by rw [hhead]⟩
  unfold alterMap
  rw [hlook]
  simp only [popToken]
  have h2 := idxList_updateTag a' hlook
  apply add_right_cancel (b := (↑(a'.map (·.index)) : Multiset Nat))
  calc (idxList m : Multiset Nat) + ↑(a'.map (·.index))
      = (idxList (updateTag key a' m) : Multiset Nat) +
          ↑((opener :: a').map (·.index)) := by rw [h2]; abel
    _ = (opener.index ::ₘ (idxList (updateTag key a' m) : Multiset Nat)) +
          ↑(a'.map (·.index)) := by
        simp only [List.map_cons, ← Multiset.cons_coe, ← Multiset.singleton_add]
        abel

theorem alter_pop_of_none {key : String} {m : TagMap}
    (h : (lookupTag key m).bind List.head? = none) :
    alterMap key popToken m = m := by
  unfold alterMap
  cases hl : lookupTag key m with
  | none => simp [popToken]
  | some a =>
    cases a with
    | nil => simp [popToken]
    | cons y ys => rw [hl] at h; simp at h

theorem mem_updateTag {key : String} {v : List IndexedToken} {m : TagMap}
    {p : String × List IndexedToken} (h : p ∈ updateTag key v m) :
    p ∈ m ∨ p = (key, v) := by
  induction m with
  | nil => simp [updateTag] at h
  | cons q rest ih =>
    obtain ⟨k, w⟩ := q
    by_cases hk : k = key
    · simp only [updateTag, hk, if_pos] at h
      rcases List.mem_cons.mp h with h | h
      · right; rw [h]
      · left; exact List.mem_cons_of_mem _ h
    · simp only [updateTag, hk, if_false] at h
      rcases List.mem_cons.mp h with h | h
      · left; exact h ▸ List.mem_cons_self _ _
      · rcases ih h with h | h
        · left; exact List.mem_cons_of_mem _ h
        · right; exact h

theorem mem_alter_append {key : String} {x : IndexedToken} {m : TagMap}
    {p : String × List IndexedToken} {it : IndexedToken}
    (hp : p ∈ alterMap key (appendToken x) m) (hit : it ∈ p.2) :
    (it = x ∧ p.1 = key) ∨ ∃ q ∈ m, q.1 = p.1 ∧ it ∈ q.2 := by
  unfold alterMap at hp
  cases h : lookupTag key m with
  | none =>
    rw [h] at hp
    simp only [appendToken] at hp
    rcases List.mem_append.mp hp with h' | h'
    · right; exact ⟨p, h', rfl, hit⟩
    · simp at h'
      rw [h'] at hit
      simp at hit
      left
      exact ⟨hit, by rw [h']⟩
  | some a =>
    rw [h] at hp
    simp only [appendToken] at hp
    rcases mem_updateTag hp with h' | h'
    · right; exact ⟨p, h', rfl, hit⟩
    · rw [h'] at hit
      simp only at hit
      rcases List.mem_cons.mp hit with h'' | h''
      · left; exact ⟨h'', by rw [h']⟩
      · right
        exact ⟨(key, a), lookupTag_mem h, by rw [h'], h''⟩

theorem mem_alter_pop {key : String} {m : TagMap}
    {p : String × List IndexedToken} {it : IndexedToken}
    (hp : p ∈ alterMap key popToken m) (hit : it ∈ p.2) :
    ∃ q ∈ m, q.1 = p.1 ∧ it ∈ q.2 := by
  unfold alterMap at hp
  cases h : lookupTag key m with
  | none =>
    rw [h] at hp
    simp only [popToken] at hp
    exact ⟨p, hp, rfl, hit⟩
  | some a =>
    rw [h] at hp
    cases a with
    | nil =>
      simp only [popToken] at hp
      exact ⟨p, hp, rfl, hit⟩
    | cons y ys =>
      simp only [popToken] at hp
      rcases mem_updateTag hp with h' | h'
      · exact ⟨p, h', rfl, hit⟩
      · refine ⟨(key, y :: ys), lookupTag_mem h, by rw [h'], ?_⟩
        rw [h'] at hit
        exact List.mem_cons_of_mem _ hit

theorem stackOk_mono {ts : List Token} {i j : Nat} {m : TagMap}
    (hij : i ≤ j) (h : StackOk ts i m) : StackOk ts j m := by
  intro p hp it hit
  obtain ⟨h1, h2, h3⟩ := h p hp it hit
  exact ⟨Nat.lt_of_lt_of_le h1 hij, h2, h3⟩

theorem mset_step0 (a : Nat) (x y z w : Multiset Nat) (h : x + y = (a ::ₘ z) + w) :
    x + y = z + (a ::ₘ w) := by
  simp only [← Multiset.singleton_add] at h ⊢
  rw [h]
  abel

theorem mset_step1 (a : Nat) (x y z w : Multiset Nat) (h : x + y = z + w) :
    (a ::ₘ x) + y = z + (a ::ₘ w) := by
  simp only [← Multiset.singleton_add]
  calc {a} + x + y = {a} + (x + y) := by abel
    _ = {a} + (z + w) := by rw [h]
    _ = z + ({a} + w) := by abel

theorem mset_step2 (a b : Nat) (x y z w : Multiset Nat) (h : x + y = z + w) :
    (a ::ₘ b ::ₘ x) + y = (b ::ₘ z) + (a ::ₘ w) := by
  simp only [← Multiset.singleton_add]
  calc {a} + ({b} + x) + y = {a} + {b} + (x + y) := by abel
    _ = {a} + {b} + (z + w) := by rw [h]
    _ = {b} + z + ({a} + w) := by abel

/-- The main invariant of the annotation loop: starting from a well-formed
map at position `i` with the remaining stream `l`, the loop produces only
well-formed outputs, ends with a well-formed map, and the indices it emits
together with the indices left on the stacks are exactly the stack indices
it started with plus the positions `i, …, i + l.length − 1`. -/
theorem annotateLoop_invariant (ts : List Token) :
    ∀ (l : List Token) (i : Nat) (m : TagMap),
      ts.drop i = l → StackOk ts i m →
      StackOk ts (i + l.length) (annotateLoop l i m).2 ∧
        (∀ o ∈ (annotateLoop l i m).1, OutOk ts o) ∧
        (((annotateLoop l i m).1.map (·.index) : Multiset Nat) +
            (idxList (annotateLoop l i m).2 : Multiset Nat) =
          (idxList m : Multiset Nat) + ↑(List.range' i l.length)) := by
  intro l
  induction l with
  | nil =>
    intro i m _ hok
    refine ⟨by simpa using hok, by simp [annotateLoop], ?_⟩
    simp [annotateLoop]
  | cons t l' ih =>
    intro i m hdrop hok
    have hts : ts[i]? = some t := by
      have := List.head?_drop ts i
      rw [hdrop] at this
      exact this.symm
    have hdrop' : ts.drop (i + 1) = l' := by
      have h1 : (ts.drop i).drop 1 = ts.drop (i + 1) := by
        rw [List.drop_drop]
      rw [hdrop] at h1
      simpa using h1.symm
    have hrange : (↑(List.range' i (t :: l').length) : Multiset Nat) =
        i ::ₘ ↑(List.range' (i + 1) l'.length) := by
      rw [List.length_cons, List.range'_succ i l'.length 1]
      simp [Multiset.cons_coe]
    cases t with
    | tagOpen name attrs =>
      have hok' : StackOk ts (i + 1)
          (alterMap name (appendToken ⟨i, .tagOpen name attrs⟩) m) := by
        intro p hp it hit
        rcases mem_alter_append hp hit with ⟨hx, hkey⟩ | ⟨q, hq, hq1, hq2⟩
        · subst hx
          exact ⟨Nat.lt_succ_self i, hts, attrs, by rw [hkey]⟩
        · obtain ⟨h1, h2, h3⟩ := hok q hq it hq2
          exact ⟨Nat.lt_succ_of_lt h1, h2, hq1 ▸ h3⟩
      obtain ⟨ih1, ih2, ih3⟩ := ih (i + 1) _ hdrop' hok'
      simp only [annotateLoop, toIndexedTagInfo]
      refine ⟨?_, ?_, ?_⟩
      · simpa [Nat.add_comm, Nat.add_assoc, Nat.add_left_comm] using ih1
      · intro o ho
        simp only [List.nil_append] at ho
        exact ih2 o ho
      · simp only [List.nil_append, hrange]
        refine mset_step0 i _ _ _ _ ?_
        rw [ih3, idxList_alter_append]
    | tagClose name =>
      cases hpop : (lookupTag name m).bind List.head? with
      | some opener =>
        have hmem : ∃ a, lookupTag name m = some a ∧ opener ∈ a := by
          rw [Option.bind_eq_some] at hpop
          obtain ⟨a, h1, h2⟩ := hpop
          exact ⟨a, h1, List.mem_of_mem_head? h2⟩
        obtain ⟨a, hlook, hmema⟩ := hmem
        obtain ⟨hlt, htok, nm', hnm⟩ := hok (name, a) (lookupTag_mem hlook) opener hmema
        have hok' : StackOk ts (i + 1) (alterMap name popToken m) := by
          intro p hp it hit
          obtain ⟨q, hq, hq1, hq2⟩ := mem_alter_pop hp hit
          obtain ⟨h1, h2, h3⟩ := hok q hq it hq2
          exact ⟨Nat.lt_succ_of_lt h1, h2, hq1 ▸ h3⟩
        obtain ⟨ih1, ih2, ih3⟩ := ih (i + 1) _ hdrop' hok'
        simp only [annotateLoop, toIndexedTagInfo, hpop]
        refine ⟨?_, ?_, ?_⟩
        · simpa [Nat.add_comm, Nat.add_assoc, Nat.add_left_comm] using ih1
        · intro o ho
          simp only [calculateOffset, List.cons_append, List.nil_append,
            List.mem_cons] at ho
          rcases ho with rfl | rfl | ho
          · exact ⟨hts, by intro k hk; simp at hk⟩
          · refine ⟨htok, ?_⟩
            intro k hk
            simp only [Option.some.injEq] at hk
            subst hk
            refine ⟨Nat.sub_pos_of_lt hlt, name, nm', hnm, ?_⟩
            rw [Nat.add_sub_cancel' (Nat.le_of_lt hlt)]
            exact hts
          · exact ih2 o ho
        · simp only [calculateOffset, List.cons_append, List.nil_append,
            List.map_cons, hrange, ← Multiset.cons_coe]
          rw [idxList_alter_pop hpop]
          exact mset_step2 i opener.index _ _ _ _ ih3
      | none =>
        have hmapeq : alterMap name popToken m = m := alter_pop_of_none hpop
        obtain ⟨ih1, ih2, ih3⟩ := ih (i + 1) m hdrop' (stackOk_mono (Nat.le_succ i) hok)
        simp only [annotateLoop, toIndexedTagInfo, hpop, hmapeq]
        refine ⟨?_, ?_, ?_⟩
        · simpa [Nat.add_comm, Nat.add_assoc, Nat.add_left_comm] using ih1
        · intro o ho
          simp only [List.cons_append, List.nil_append, List.mem_cons] at ho
          rcases ho with rfl | ho
          · exact ⟨hts, by intro k hk; simp at hk⟩
          · exact ih2 o ho
        · simp only [List.cons_append, List.nil_append, List.map_cons, hrange,
            ← Multiset.cons_coe]
          exact mset_step1 i _ _ _ _ ih3
    | text s =>
      obtain ⟨ih1, ih2, ih3⟩ := ih (i + 1) m hdrop' (stackOk_mono (Nat.le_succ i) hok)
      simp only [annotateLoop, toIndexedTagInfo]
      refine ⟨?_, ?_, ?_⟩
      · simpa [Nat.add_comm, Nat.add_assoc, Nat.add_left_comm] using ih1
      · intro o ho
        simp only [List.cons_append, List.nil_append, List.mem_cons] at ho
        rcases ho with rfl | ho
        · exact ⟨hts, by intro k hk; simp at hk⟩
        · exact ih2 o ho
      · simp only [List.cons_append, List.nil_append, List.map_cons, hrange,
          ← Multiset.cons_coe]
        exact mset_step1 i _ _ _ _ ih3
    | comment s =>
      obtain ⟨ih1, ih2, ih3⟩ := ih (i + 1) m hdrop' (stackOk_mono (Nat.le_succ i) hok)
      simp only [annotateLoop, toIndexedTagInfo]
      refine ⟨?_, ?_, ?_⟩
      · simpa [Nat.add_comm, Nat.add_assoc, Nat.add_left_comm] using ih1
      · intro o ho
        simp only [List.cons_append, List.nil_append, List.mem_cons] at ho
        rcases ho with rfl | ho
        · exact ⟨hts, by intro k hk; simp at hk⟩
        · exact ih2 o ho
      · simp only [List.cons_append, List.nil_append, List.map_cons, hrange,
          ← Multiset.cons_coe]
        exact mset_step1 i _ _ _ _ ih3

theorem toRemaining_idx (m : TagMap) :
    ((toRemaining m).map (·.index) : Multiset Nat) = (idxList m : Multiset Nat) := by
  rw [Multiset.coe_eq_coe]
  have h1 : (toRemaining m).map (·.index) =
      ((m.map Prod.snd).insertionSort stackLe).flatten.map (·.index) := by
    simp only [toRemaining, List.map_map]
    rfl
  rw [h1]
  have h2 := (List.perm_insertionSort stackLe (m.map Prod.snd)).flatten.map
    (fun it : IndexedToken => it.index)
  refine h2.trans ?_
  have h3 : ((m.map Prod.snd).flatten.map (·.index)) = idxList m := by
    rw [List.map_flatten]
    simp only [idxList, List.map_map]
    rfl
  rw [h3]

theorem mem_toRemaining {m : TagMap} {o : IndexedTagInfo} (h : o ∈ toRemaining m) :
    ∃ it : IndexedToken, o = ⟨it.index, ⟨it.token, none⟩⟩ ∧ ∃ p ∈ m, it ∈ p.2 := by
  simp only [toRemaining, List.mem_map] at h
  obtain ⟨it, hit, rfl⟩ := h
  refine ⟨it, rfl, ?_⟩
  rw [List.mem_flatten] at hit
  obtain ⟨v, hv, hitv⟩ := hit
  have hvm : v ∈ m.map Prod.snd :=
    (List.perm_insertionSort stackLe (m.map Prod.snd)).mem_iff.mp hv
  rw [List.mem_map] at hvm
  obtain ⟨p, hp, rfl⟩ := hvm
  exact ⟨p, hp, hitv⟩

/-- The output of `annotateTags` described positionally: it is the
projection of a list of indexed entries whose indices are exactly
`0, …, n − 1` in order and which are all well-formed (`OutOk`). -/
theorem annotateTags_master (ts : List Token) :
    ∃ L : List IndexedTagInfo,
      annotateTags ts = L.map (·.info) ∧
        L.map (·.index) = List.range ts.length ∧
        ∀ o ∈ L, OutOk ts o := by
  obtain ⟨hstack, hout, hidx⟩ :=
    annotateLoop_invariant ts ts 0 [] (by simp) (by intro p hp; simp at hp)
  refine ⟨((annotateLoop ts 0 []).1 ++
    toRemaining (annotateLoop ts 0 []).2).insertionSort leIdx, rfl, ?_, ?_⟩
  · have hperm := List.perm_insertionSort leIdx
      ((annotateLoop ts 0 []).1 ++ toRemaining (annotateLoop ts 0 []).2)
    have hms : ((((annotateLoop ts 0 []).1 ++
        toRemaining (annotateLoop ts 0 []).2).insertionSort leIdx).map (·.index) :
          Multiset Nat) = ↑(List.range ts.length) := by
      rw [Multiset.coe_eq_coe.mpr (hperm.map (·.index))]
      rw [List.map_append, ← Multiset.coe_add, toRemaining_idx]
      rw [hidx]
      simp [idxList, List.range_eq_range']
    have hpermIdx := Multiset.coe_eq_coe.mp hms
    have hsorted := List.sorted_insertionSort leIdx
      ((annotateLoop ts 0 []).1 ++ toRemaining (annotateLoop ts 0 []).2)
    have hsortedIdx : List.Sorted (· ≤ ·)
        ((((annotateLoop ts 0 []).1 ++
          toRemaining (annotateLoop ts 0 []).2).insertionSort leIdx).map (·.index)) :=
      List.pairwise_map.mpr hsorted
    exact List.eq_of_perm_of_sorted hpermIdx hsortedIdx
      ((List.sorted_lt_range ts.length).imp le_of_lt)
  · intro o ho
    have hmem : o ∈ (annotateLoop ts 0 []).1 ++ toRemaining (annotateLoop ts 0 []).2 :=
      (List.perm_insertionSort leIdx _).mem_iff.mp ho
    rcases List.mem_append.mp hmem with h | h
    · exact hout o h
    · obtain ⟨it, rfl, p, hp, hitp⟩ := mem_toRemaining h
      obtain ⟨h1, h2, h3⟩ := hstack p hp it hitp
      exact ⟨h2, by intro k hk; simp at hk⟩

theorem master_index_at {ts : List Token} {L : List IndexedTagInfo}
    (hidx : L.map (·.index) = List.range ts.length) (j : Nat) (h : j < L.length) :
    L[j].index = j := by
  have hlen : L.length = ts.length := by
    have := congrArg List.length hidx
    simpa using this
  have h2 : (L.map (·.index))[j]? = (List.range ts.length)[j]? := by rw [hidx]
  rw [List.getElem?_map, List.getElem?_eq_getElem h] at h2
  have hj : j < ts.length := by omega
  rw [List.getElem?_eq_getElem (by simpa using hj)] at h2
  simpa using h2

/-- **C3.**  `annotateTags` returns exactly one `TagInfo` per input token,
in order: the result has the length of the input and projecting the tokens
back out returns the input stream unchanged. -/
theorem annotateTags_preserves_tokens (ts : List Token) :
    (annotateTags ts).length = ts.length ∧
      (annotateTags ts).map (·.token) = ts := by
  obtain ⟨L, hL, hidx, hok⟩ := annotateTags_master ts
  have hlen : L.length = ts.length := by
    have := congrArg List.length hidx
    simpa using this
  constructor
  · rw [hL]
    simpa using hlen
  · rw [hL]
    apply List.ext_getElem?
    intro j
    rw [List.map_map]
    by_cases h : j < L.length
    · have hmem : L[j] ∈ L := List.getElem_mem h
      obtain ⟨h1, _⟩ := hok _ hmem
      rw [master_index_at hidx j h] at h1
      rw [List.getElem?_map, List.getElem?_eq_getElem h]
      rw [h1]
      rfl
    · push_neg at h
      rw [List.getElem?_eq_none (by simpa using h),
        List.getElem?_eq_none (by omega)]

/-- **C4.**  Whenever the `i`-th entry of `annotateTags ts` carries
`closeOffset = some k`, the offset is strictly positive, the `i`-th token
is a `TagOpen`, and the token `k` positions later is a `TagClose` of the
same name. -/
theorem annotateTags_closeOffset_balanced (ts : List Token) (i k : Nat)
    (info : TagInfo) (hget : (annotateTags ts)[i]? = some info)
    (hoff : info.closeOffset = some k) :
    0 < k ∧ ∃ nm attrs, ts[i]? = some (Token.tagOpen nm attrs) ∧
      ts[i + k]? = some (Token.tagClose nm) := by
  obtain ⟨L, hL, hidx, hok⟩ := annotateTags_master ts
  rw [hL] at hget
  have hi : i < L.length := by
    by_contra h
    push_neg at h
    rw [List.getElem?_eq_none (by simpa using h)] at hget
    exact Option.noConfusion hget
  have hinfo : info = L[i].info := by
    rw [List.getElem?_map, List.getElem?_eq_getElem hi] at hget
    simpa using hget.symm
  obtain ⟨h1, h2⟩ := hok _ (List.getElem_mem hi)
  rw [hinfo] at hoff
  obtain ⟨hpos, nm, attrs, htok, hclose⟩ := h2 k hoff
  have hIdxAt := master_index_at hidx i hi
  refine ⟨hpos, nm, attrs, ?_, ?_⟩
  · rw [hIdxAt] at h1
    rw [h1, htok]
  · rw [hIdxAt] at hclose
    exact hclose

/-- Witness for C4 at a concrete input. -/
theorem annotateTags_closeOffset_balanced_witness :
    (annotateTags [Token.tagOpen "a" [], Token.tagClose "a"])[0]? =
        some ⟨Token.tagOpen "a" [], some 1⟩ ∧
      (0 < 1 ∧ ∃ nm attrs,
        ([Token.tagOpen "a" [], Token.tagClose "a"] : List Token)[0]? =
            some (Token.tagOpen nm attrs) ∧
          ([Token.tagOpen "a" [], Token.tagClose "a"] : List Token)[0 + 1]? =
            some (Token.tagClose nm)) :=
  ⟨by decide,
    annotateTags_closeOffset_balanced [Token.tagOpen "a" [], Token.tagClose "a"]
      0 1 ⟨Token.tagOpen "a" [], some 1⟩ (by decide) rfl⟩


/-!
## The tag forest (`Internal/Tag/TagForest.ts`)
-/

/-- The span of a tag in the token stream: index of the opening tag and
index of the closing tag (`TagSpan` of `Internal/Tag/TagForest.ts`).  The
field `endIdx` models the source field named `end`, which is a reserved
word in Lean. -/
structure TagSpan where
  start : Nat
  endIdx : Nat
  deriving Repr, DecidableEq

/-- A rose tree of tag spans (`fp-ts` `Tree<TagSpan>`); a `TagForest` is a
list of such trees. -/
inductive TagTree where
  | node (value : TagSpan) (forest : List TagTree)

/-- The root span of a tree (the `value` field of an `fp-ts` `Tree`). -/
def TagTree.value : TagTree → TagSpan
  | .node v _ => v

/-- The child forest of a tree (the `forest` field of an `fp-ts` `Tree`). -/
def TagTree.forest : TagTree → List TagTree
  | .node _ f => f

mutual

def TagTree.beq : TagTree → TagTree → Bool
  | .node v f, .node v' f' => v == v' && TagTree.beqList f f'

def TagTree.beqList : List TagTree → List TagTree → Bool
  | [], [] => true
  | t :: ts, t' :: ts' => TagTree.beq t t' && TagTree.beqList ts ts'
  | _, _ => false

end

mutual

theorem TagTree.beq_iff : ∀ t t' : TagTree, TagTree.beq t t' = true ↔ t = t'
  | .node v f, .node v' f' => by
    simp only [TagTree.beq, Bool.and_eq_true, beq_iff_eq, TagTree.node.injEq]
    exact and_congr Iff.rfl (TagTree.beqList_iff f f')

theorem TagTree.beqList_iff : ∀ l l' : List TagTree, TagTree.beqList l l' = true ↔ l = l'
  | [], [] => by simp [TagTree.beqList]
  | [], _ :: _ => by simp [TagTree.beqList]
  | _ :: _, [] => by simp [TagTree.beqList]
  | t :: ts, t' :: ts' => by
    simp only [TagTree.beqList, Bool.and_eq_true, List.cons.injEq]
    exact and_congr (TagTree.beq_iff t t') (TagTree.beqList_iff ts ts')

end

instance : DecidableEq TagTree := fun t t' =>
  decidable_of_iff (TagTree.beq t t' = true) (TagTree.beq_iff t t')

mutual

/-- Number of nodes of a tree (used as a termination measure). -/
def sizeT : TagTree → Nat
  | .node _ f => 1 + sizeF f

/-- Number of nodes of a forest (used as a termination measure). -/
def sizeF : List TagTree → Nat
  | [] => 0
  | t :: ts => sizeT t + sizeF ts

end

theorem sizeT_pos (t : TagTree) : 0 < sizeT t := by
  cases t with
  | node v f => simp only [sizeT]; omega

theorem sizeF_cons (t : TagTree) (ts : List TagTree) :
    sizeF (t :: ts) = sizeT t + sizeF ts := rfl

theorem sizeT_eq (t : TagTree) : sizeT t = 1 + sizeF t.forest := by
  cases t with
  | node v f => simp [sizeT, TagTree.forest]

theorem sizeF_append (l₁ l₂ : List TagTree) :
    sizeF (l₁ ++ l₂) = sizeF l₁ + sizeF l₂ := by
  induction l₁ with
  | nil => simp [sizeF]
  | cons t ts ih =>
    rw [List.cons_append, sizeF_cons, sizeF_cons, ih]
    omega

theorem sizeT_mem_le {t : TagTree} {l : List TagTree} (h : t ∈ l) :
    sizeT t ≤ sizeF l := by
  induction l with
  | nil => simp at h
  | cons u us ih =>
    rcases List.mem_cons.mp h with rfl | h
    · simp only [sizeF]; omega
    · have := ih h
      simp only [sizeF]
      omega

/-- `shouldSkip` of `Internal/Tag/TagForest.ts`: closing tags and comments
do not own a span. -/
def shouldSkip : Token → Bool
  | .tagOpen _ _ => false
  | .tagClose _ => true
  | .text _ => false
  | .comment _ => true

/-- The partition produced by `malformed`: children whose span stays inside
the parent (`ok`) and children which close beyond it (`bad`). -/
structure Malformed where
  ok : List TagTree
  bad : List TagTree

/-- `malformed` of `Internal/Tag/TagForest.ts`: fold over `remaining`
partitioning each node by whether its span ends beyond `e`; the base case
carries `preBad` as the initial `bad` list. -/
def malformed (e : Nat) (preBad : List TagTree) : List TagTree → Malformed
  | [] => ⟨[], preBad⟩
  | n :: ns =>
    let r := malformed e preBad ns
    if e < n.value.endIdx then ⟨r.ok, n :: r.bad⟩ else ⟨n :: r.ok, r.bad⟩

/-- `fixTree` of `Internal/Tag/TagForest.ts`: hoist nodes whose closing
tags lie outside their parent up to the parent's sibling position. -/
def fixTree : List TagTree → List TagTree
  | [] => []
  | .node ⟨s, e⟩ forest :: siblings =>
    let r := malformed e (fixTree siblings) (fixTree forest)
    .node ⟨s, e⟩ r.ok :: r.bad
termination_by l => sizeF l
decreasing_by
  · simp only [sizeF, sizeT]; omega
  · simp only [sizeF, sizeT]; omega

/-- `forestWithin` (the local recursion of `fromTagInfo`): the forest of
spans whose opening tags lie in `[start, e)`.  `isOutOfBound` of the
source is the bounds check on `start`; a skipped token advances `start`;
otherwise a node spanning to `start + closeOffset.getOrElse 0` is built,
with its children strictly inside and its siblings after the close. -/
def forestWithin (tokenInfo : List TagInfo) (start e : Nat) : List TagTree :=
  if h : e ≤ start ∨ tokenInfo.length ≤ start then []
  else
    if shouldSkip tokenInfo[start].token then forestWithin tokenInfo (start + 1) e
    else
      .node ⟨start, start + tokenInfo[start].closeOffset.getD 0⟩
          (forestWithin tokenInfo (start + 1)
            (start + tokenInfo[start].closeOffset.getD 0)) ::
        forestWithin tokenInfo (start + tokenInfo[start].closeOffset.getD 0 + 1) e
termination_by tokenInfo.length - start
decreasing_by
  · omega
  · omega
  · omega

/-- `fromTagInfo` of `Internal/Tag/TagForest.ts`. -/
def fromTagInfo (tokenInfo : List TagInfo) : List TagTree :=
  fixTree (forestWithin tokenInfo 0 tokenInfo.length)

/-!
## The forest invariant
-/

mutual

/-- All spans of a tree, root first. -/
def spansT : TagTree → List TagSpan
  | .node v f => v :: spansF f

/-- All spans of a forest. -/
def spansF : List TagTree → List TagSpan
  | [] => []
  | t :: ts => spansT t ++ spansF ts

end

theorem mem_spansF_iff {sp : TagSpan} {F : List TagTree} :
    sp ∈ spansF F ↔ ∃ t ∈ F, sp ∈ spansT t := by
  induction F with
  | nil => simp [spansF]
  | cons t ts ih =>
    rw [show spansF (t :: ts) = spansT t ++ spansF ts from rfl]
    rw [List.mem_append, ih]
    constructor
    · rintro (h | ⟨u, hu, hsp⟩)
      · exact ⟨t, List.mem_cons_self _ _, h⟩
      · exact ⟨u, List.mem_cons_of_mem _ hu, hsp⟩
    · rintro ⟨u, hu, hsp⟩
      rcases List.mem_cons.mp hu with rfl | hu
      · exact Or.inl hsp
      · exact Or.inr ⟨u, hu, hsp⟩

theorem root_span_mem_spansT (t : TagTree) : t.value ∈ spansT t := by
  cases t with
  | node v f => simp [spansT, TagTree.value]

/-- The amended forest invariant (C2 without the sibling clause): spans
are well-formed and children nest strictly inside their parent. -/
inductive GoodTree : TagTree → Prop where
  | mk {v : TagSpan} {f : List TagTree} :
      v.start ≤ v.endIdx →
      (∀ c ∈ f, v.start < c.value.start ∧ c.value.endIdx ≤ v.endIdx) →
      (∀ c ∈ f, GoodTree c) →
      GoodTree (.node v f)

/-- Consecutive siblings `a`, `b` satisfy `a.end < b.start` (the sibling
clause of C2, which the code does not guarantee on cross-closed input). -/
inductive SibOrdered : List TagTree → Prop where
  | nil : SibOrdered []
  | single (t : TagTree) : SibOrdered [t]
  | cons {a b : TagTree} {rest : List TagTree} :
      a.value.endIdx < b.value.start → SibOrdered (b :: rest) →
      SibOrdered (a :: b :: rest)

/-- The forest invariant exactly as C2 states it, sibling clause
included, read recursively through the tree. -/
inductive ClaimTree : TagTree → Prop where
  | mk {v : TagSpan} {f : List TagTree} :
      v.start ≤ v.endIdx →
      (∀ c ∈ f, v.start < c.value.start ∧ c.value.endIdx ≤ v.endIdx) →
      SibOrdered f →
      (∀ c ∈ f, ClaimTree c) →
      ClaimTree (.node v f)

/-- The shape invariant of the forests produced by `forestWithin s e`:
every node starts at or after `s`, spans forward, and children start
strictly after their parent. -/
inductive PreGood : Nat → TagTree → Prop where
  | mk {s : Nat} {v : TagSpan} {f : List TagTree} :
      s ≤ v.start → v.start ≤ v.endIdx →
      (∀ c ∈ f, PreGood (v.start + 1) c) →
      PreGood s (.node v f)

theorem PreGood.mono {s s' : Nat} {t : TagTree} (hs : s' ≤ s) (h : PreGood s t) :
    PreGood s' t := by
  cases h with
  | mk h1 h2 h3 => exact .mk (Nat.le_trans hs h1) h2 h3

theorem PreGood.spans_lower {s : Nat} {t : TagTree} (h : PreGood s t) :
    ∀ sp ∈ spansT t, s ≤ sp.start ∧ sp.start ≤ sp.endIdx := by
  generalize hn : sizeT t = n
  induction n using Nat.strong_induction_on generalizing s t with
  | _ n ih =>
    cases h with
    | @mk s v f h1 h2 h3 =>
      intro sp hsp
      rw [show spansT (.node v f) = v :: spansF f from rfl] at hsp
      rcases List.mem_cons.mp hsp with rfl | hsp
      · exact ⟨h1, h2⟩
      · obtain ⟨c, hc, hspc⟩ := mem_spansF_iff.mp hsp
        have hsize : sizeT c < n := by
          have h4 := sizeT_mem_le hc
          rw [← hn]
          simp only [sizeT]
          omega
        have := ih (sizeT c) hsize (h3 c hc) rfl sp hspc
        exact ⟨by omega, this.2⟩

/-- Nodes produced by `forestWithin` satisfy `PreGood`. -/
theorem forestWithin_pregood (info : List TagInfo) :
    ∀ start e t, t ∈ forestWithin info start e → PreGood start t := by
  intro start
  generalize hn : info.length - start = n
  induction n using Nat.strong_induction_on generalizing start with
  | _ n ih =>
    intro e t ht
    rw [forestWithin] at ht
    by_cases hg : e ≤ start ∨ info.length ≤ start
    · rw [dif_pos hg] at ht
      simp at ht
    · rw [dif_neg hg] at ht
      push_neg at hg
      have hlt : start < info.length := by omega
      by_cases hskip : shouldSkip info[start].token
      · rw [if_pos hskip] at ht
        have := ih (info.length - (start + 1)) (by omega) (start + 1) (by rfl) e t ht
        exact this.mono (Nat.le_succ start)
      · rw [if_neg hskip] at ht
        rcases List.mem_cons.mp ht with rfl | ht
        · refine .mk (Nat.le_refl _) (Nat.le_add_right _ _) ?_
          intro c hc
          exact ih (info.length - (start + 1)) (by omega) (start + 1) (by rfl) _ c hc
        · have := ih
            (info.length - (start + info[start].closeOffset.getD 0 + 1))
            (by omega)
            (start + info[start].closeOffset.getD 0 + 1) (by rfl) e t ht
          exact this.mono (by omega)

/-- The nesting facts `fixTree` needs from its input: each node spans
forward, and every span in a child subtree starts strictly after the
parent. -/
inductive PreNested : TagTree → Prop where
  | mk {v : TagSpan} {f : List TagTree} :
      v.start ≤ v.endIdx →
      (∀ c ∈ f, ∀ sp ∈ spansT c, v.start < sp.start) →
      (∀ c ∈ f, PreNested c) →
      PreNested (.node v f)

theorem PreGood.toPreNested {s : Nat} {t : TagTree} (h : PreGood s t) :
    PreNested t := by
  generalize hn : sizeT t = n
  induction n using Nat.strong_induction_on generalizing s t with
  | _ n ih =>
    cases h with
    | @mk s v f h1 h2 h3 =>
      refine .mk h2 ?_ ?_
      · intro c hc sp hsp
        have := (h3 c hc).spans_lower sp hsp
        omega
      · intro c hc
        have hsize : sizeT c < n := by
          have h4 := sizeT_mem_le hc
          rw [← hn]
          simp only [sizeT]
          omega
        exact ih (sizeT c) hsize (h3 c hc) rfl

theorem mem_malformed_ok {e : Nat} {pb rem : List TagTree} {u : TagTree}
    (h : u ∈ (malformed e pb rem).ok) : u ∈ rem ∧ u.value.endIdx ≤ e := by
  induction rem with
  | nil => simp [malformed] at h
  | cons n ns ih =>
    rw [malformed] at h
    by_cases hcmp : e < n.value.endIdx
    · rw [if_pos hcmp] at h
      obtain ⟨h1, h2⟩ := ih h
      exact ⟨List.mem_cons_of_mem _ h1, h2⟩
    · rw [if_neg hcmp] at h
      rcases List.mem_cons.mp h with rfl | h
      · exact ⟨List.mem_cons_self _ _, by omega⟩
      · obtain ⟨h1, h2⟩ := ih h
        exact ⟨List.mem_cons_of_mem _ h1, h2⟩

theorem mem_malformed_bad {e : Nat} {pb rem : List TagTree} {u : TagTree}
    (h : u ∈ (malformed e pb rem).bad) : u ∈ rem ∨ u ∈ pb := by
  induction rem with
  | nil =>
    simp only [malformed] at h
    exact Or.inr h
  | cons n ns ih =>
    rw [malformed] at h
    by_cases hcmp : e < n.value.endIdx
    · rw [if_pos hcmp] at h
      rcases List.mem_cons.mp h with rfl | h
      · exact Or.inl (List.mem_cons_self _ _)
      · rcases ih h with h | h
        · exact Or.inl (List.mem_cons_of_mem _ h)
        · exact Or.inr h
    · rw [if_neg hcmp] at h
      rcases ih h with h | h
      · exact Or.inl (List.mem_cons_of_mem _ h)
      · exact Or.inr h

theorem malformed_spans (e : Nat) (pb rem : List TagTree) :
    (spansF (malformed e pb rem).ok : Multiset TagSpan) +
        ↑(spansF (malformed e pb rem).bad) =
      (spansF rem : Multiset TagSpan) + ↑(spansF pb) := by
  induction rem with
  | nil => simp [malformed, spansF]
  | cons n ns ih =>
    rw [malformed]
    by_cases hcmp : e < n.value.endIdx
    · rw [if_pos hcmp]
      rw [show spansF (n :: ns) = spansT n ++ spansF ns from rfl]
      rw [show spansF (n :: (malformed e pb ns).bad) =
        spansT n ++ spansF (malformed e pb ns).bad from rfl]
      simp only [← Multiset.coe_add] at ih ⊢
      calc (spansF (malformed e pb ns).ok : Multiset TagSpan) +
            (↑(spansT n) + ↑(spansF (malformed e pb ns).bad))
          = ↑(spansT n) + ((spansF (malformed e pb ns).ok : Multiset TagSpan) +
              ↑(spansF (malformed e pb ns).bad)) := by abel
        _ = ↑(spansT n) + ((spansF ns : Multiset TagSpan) + ↑(spansF pb)) := by rw [ih]
        _ = ↑(spansT n) + ↑(spansF ns) + ↑(spansF pb) := by abel
    · rw [if_neg hcmp]
      rw [show spansF (n :: ns) = spansT n ++ spansF ns from rfl]
      rw [show spansF (n :: (malformed e pb ns).ok) =
        spansT n ++ spansF (malformed e pb ns).ok from rfl]
      simp only [← Multiset.coe_add] at ih ⊢
      calc ↑(spansT n) + (spansF (malformed e pb ns).ok : Multiset TagSpan) +
            ↑(spansF (malformed e pb ns).bad)
          = ↑(spansT n) + ((spansF (malformed e pb ns).ok : Multiset TagSpan) +
              ↑(spansF (malformed e pb ns).bad)) := by abel
        _ = ↑(spansT n) + ((spansF ns : Multiset TagSpan) + ↑(spansF pb)) := by rw [ih]
        _ = ↑(spansT n) + ↑(spansF ns) + ↑(spansF pb) := by abel

theorem fixTree_spans (F : List TagTree) :
    (spansF (fixTree F) : Multiset TagSpan) = ↑(spansF F) := by
  generalize hn : sizeF F = n
  induction n using Nat.strong_induction_on generalizing F with
  | _ n ih =>
    cases F with
    | nil => rw [fixTree]
    | cons t sibs =>
      obtain ⟨⟨s, e⟩, f⟩ := t
      rw [fixTree]
      rw [show spansF (TagTree.node ⟨s, e⟩
          (malformed e (fixTree sibs) (fixTree f)).ok ::
            (malformed e (fixTree sibs) (fixTree f)).bad) =
        (⟨s, e⟩ :: spansF (malformed e (fixTree sibs) (fixTree f)).ok) ++
          spansF (malformed e (fixTree sibs) (fixTree f)).bad from rfl]
      rw [show spansF (TagTree.node ⟨s, e⟩ f :: sibs) =
        (⟨s, e⟩ :: spansF f) ++ spansF sibs from rfl]
      have hm := malformed_spans e (fixTree sibs) (fixTree f)
      have ihf : (spansF (fixTree f) : Multiset TagSpan) = ↑(spansF f) := by
        refine ih (sizeF f) ?_ f rfl
        rw [← hn]
        simp only [sizeF, sizeT]
        omega
      have ihs : (spansF (fixTree sibs) : Multiset TagSpan) = ↑(spansF sibs) := by
        refine ih (sizeF sibs) ?_ sibs rfl
        rw [← hn]
        simp only [sizeF, sizeT]
        omega
      rw [ihf, ihs] at hm
      simp only [← Multiset.coe_add, ← Multiset.cons_coe, ← Multiset.singleton_add]
      calc ({(⟨s, e⟩ : TagSpan)} +
            (spansF (malformed e (fixTree sibs) (fixTree f)).ok : Multiset TagSpan)) +
            ↑(spansF (malformed e (fixTree sibs) (fixTree f)).bad)
          = {(⟨s, e⟩ : TagSpan)} +
            ((spansF (malformed e (fixTree sibs) (fixTree f)).ok : Multiset TagSpan) +
              ↑(spansF (malformed e (fixTree sibs) (fixTree f)).bad)) := by abel
        _ = {(⟨s, e⟩ : TagSpan)} + ((spansF f : Multiset TagSpan) + ↑(spansF sibs)) := by
            rw [hm]
        _ = ({(⟨s, e⟩ : TagSpan)} + ↑(spansF f)) + ↑(spansF sibs) := by abel

theorem mem_value_spansF {t : TagTree} {F : List TagTree} (h : t ∈ F) :
    t.value ∈ spansF F :=
  mem_spansF_iff.mpr ⟨t, h, root_span_mem_spansT t⟩

/-- `fixTree` turns any pre-nested forest into one satisfying the amended
forest invariant. -/
theorem fixTree_good (F : List TagTree) (hF : ∀ t ∈ F, PreNested t) :
    ∀ u ∈ fixTree F, GoodTree u := by
  generalize hn : sizeF F = n
  induction n using Nat.strong_induction_on generalizing F with
  | _ n ih =>
    cases F with
    | nil =>
      intro u hu
      rw [fixTree] at hu
      simp at hu
    | cons t sibs =>
      obtain ⟨⟨s, e⟩, f⟩ := t
      obtain ⟨h1, h2, h3⟩ : s ≤ e ∧
          (∀ c ∈ f, ∀ sp ∈ spansT c, s < sp.start) ∧ ∀ c ∈ f, PreNested c := by
        have := hF _ (List.mem_cons_self _ _)
        cases this with
        | mk ha hb hc => exact ⟨ha, hb, hc⟩
      have ihf : ∀ u ∈ fixTree f, GoodTree u := by
        refine ih (sizeF f) ?_ f h3 rfl
        rw [← hn]
        simp only [sizeF, sizeT]
        omega
      have ihs : ∀ u ∈ fixTree sibs, GoodTree u := by
        refine ih (sizeF sibs) ?_ sibs (fun u hu => hF u (List.mem_cons_of_mem _ hu)) rfl
        rw [← hn]
        simp only [sizeF, sizeT]
        omega
      intro u hu
      rw [fixTree] at hu
      rcases List.mem_cons.mp hu with rfl | hu
      · refine .mk h1 ?_ ?_
        · intro c hc
          obtain ⟨hcf, hce⟩ := mem_malformed_ok hc
          refine ⟨?_, hce⟩
          have hsp : c.value ∈ spansF (fixTree f) := mem_value_spansF hcf
          have hsp2 : c.value ∈ spansF f := by
            have := fixTree_spans f
            have hm : c.value ∈ (spansF (fixTree f) : Multiset TagSpan) :=
              Multiset.mem_coe.mpr hsp
            rw [this] at hm
            exact Multiset.mem_coe.mp hm
          obtain ⟨c2, hc2, hspc2⟩ := mem_spansF_iff.mp hsp2
          exact h2 c2 hc2 c.value hspc2
        · intro c hc
          exact ihf c (mem_malformed_ok hc).1
      · rcases mem_malformed_bad hu with hu | hu
        · exact ihf u hu
        · exact ihs u hu

/-- **C2 (amended).**  For every token stream, every tree of
`fromTagInfo (annotateTags ts)` has well-formed spans (`start ≤ end`) and
children strictly nested in their parent (`parent.start < child.start` and
`child.end ≤ parent.end`).  The sibling non-overlap clause of the original
claim is dropped: it fails on cross-closing input (see the
counterexample). -/
theorem fromTagInfo_forest_invariant (ts : List Token) (t : TagTree)
    (h : t ∈ fromTagInfo (annotateTags ts)) : GoodTree t := by
  rw [fromTagInfo] at h
  refine fixTree_good _ ?_ t h
  intro u hu
  exact (forestWithin_pregood (annotateTags ts) 0 (annotateTags ts).length u hu).toPreNested

/-- Witness for the amended C2 at a concrete input. -/
theorem fromTagInfo_forest_invariant_witness :
    TagTree.node ⟨0, 1⟩ [] ∈
        fromTagInfo (annotateTags [Token.tagOpen "a" [], Token.tagClose "a"]) ∧
      GoodTree (TagTree.node ⟨0, 1⟩ []) := by
  have hmem : TagTree.node ⟨0, 1⟩ [] ∈
      fromTagInfo (annotateTags [Token.tagOpen "a" [], Token.tagClose "a"]) := by
    have h1 : annotateTags [Token.tagOpen "a" [], Token.tagClose "a"] =
        [⟨Token.tagOpen "a" [], some 1⟩, ⟨Token.tagClose "a", none⟩] := by decide
    rw [fromTagInfo, h1]
    simp +decide [forestWithin, fixTree, malformed, shouldSkip]
  exact ⟨hmem, fromTagInfo_forest_invariant _ _ hmem⟩

/-- **C2 counterexample.**  On the cross-closing stream
`<d><b><c></b></c></d>` the forest produced by the code is
`[(0,5)[(1,3)[], (2,4)[]]]`: the two children of the root are consecutive
siblings with spans `(1,3)` and `(2,4)`, so `a.end < b.start` fails
(`3 < 2` is false) and the invariant exactly as claimed does not hold. -/
theorem fromTagInfo_claim_counterexample :
    ¬ ∀ t ∈ fromTagInfo (annotateTags
        [Token.tagOpen "d" [], Token.tagOpen "b" [], Token.tagOpen "c" [],
          Token.tagClose "b", Token.tagClose "c", Token.tagClose "d"]),
      ClaimTree t := by
  intro h
  have h1 : annotateTags
      [Token.tagOpen "d" [], Token.tagOpen "b" [], Token.tagOpen "c" [],
        Token.tagClose "b", Token.tagClose "c", Token.tagClose "d"] =
      [⟨Token.tagOpen "d" [], some 5⟩, ⟨Token.tagOpen "b" [], some 2⟩,
        ⟨Token.tagOpen "c" [], some 2⟩, ⟨Token.tagClose "b", none⟩,
        ⟨Token.tagClose "c", none⟩, ⟨Token.tagClose "d", none⟩] := by decide
  have h2 : fromTagInfo (annotateTags
      [Token.tagOpen "d" [], Token.tagOpen "b" [], Token.tagOpen "c" [],
        Token.tagClose "b", Token.tagClose "c", Token.tagClose "d"]) =
      [.node ⟨0, 5⟩ [.node ⟨1, 3⟩ [], .node ⟨2, 4⟩ []]] := by
    rw [fromTagInfo, h1]
    simp +decide [forestWithin, fixTree, malformed, shouldSkip, TagTree.value]
  rw [h2] at h
  have h3 := h _ (List.mem_singleton.mpr rfl)
  cases h3 with
  | mk _ _ hsib _ =>
    cases hsib with
    | cons hlt _ =>
      simp [TagTree.value] at hlt


/-!
## Selectors and the matcher (`Select.ts`, `Internal/MatchResult.ts`,
`Internal/Tag/TagSpec.ts`)
-/

/-- An `AttributePredicate` is a pure predicate on the attribute list of a
tag (`Select.ts`). -/
abbrev AttributePredicate := List Attribute → Bool

/-- `SelectStrategy` of `Select.ts`: `SelectOne`, `SelectAny` and
`SelectText`. -/
inductive SelectStrategy where
  | selectOne (tag : String) (predicates : List AttributePredicate)
  | selectAny (predicates : List AttributePredicate)
  | selectText

/-- `SelectSettings` of `Select.ts`: the optional required depth.  The
depth is caller supplied (`atDepth` accepts any number), so it is
modelled as `Int`. -/
structure SelectSettings where
  depth : Option Int

/-- `Selection` of `Select.ts`. -/
structure Selection where
  strategy : SelectStrategy
  settings : SelectSettings

/-- A `Selector` is a list of `Selection`s, innermost first. -/
abbrev Selector := List Selection

/-- `SelectContext` of `Select.ts`. -/
structure SelectContext where
  position : Nat
  inChroot : Bool
  deriving Repr, DecidableEq

/-- `TagSpec` of `Internal/Tag/TagSpec.ts`: context, forest view and the
annotated token vector. -/
structure TagSpec where
  context : SelectContext
  hierarchy : List TagTree
  tags : List TagInfo
  deriving DecidableEq

/-- The default settings (`defaultSelectSettings`: no depth). -/
def defaultSelectSettings : SelectSettings := ⟨none⟩

/-- The `tag` selector constructor. -/
def tag (name : String) : Selector :=
  [⟨.selectOne name [], defaultSelectSettings⟩]

/-- The `any` selector constructor. -/
def anySel : Selector := [⟨.selectAny [], defaultSelectSettings⟩]

/-- The `text` selector constructor. -/
def textSel : Selector := [⟨.selectText, defaultSelectSettings⟩]

/-- `nested` of `Select.ts`: `concat(child, parent)` of the monoid of
readonly arrays, so the child (innermost) selections come first. -/
def nested (parent : Selector) (child : Selector) : Selector := child ++ parent

/-- `atDepth` of `Select.ts`: override the settings of the last (outermost)
selection with the given depth. -/
def atDepth (depth : Int) (selector : Selector) : Selector :=
  selector.mapIdx fun i curr =>
    if i = selector.length - 1 then ⟨curr.strategy, ⟨some depth⟩⟩ else curr

/-- `hasClass` of `Select.ts`: some attribute has key exactly `"class"`
and the class name occurs in the space-split list of classes. -/
def hasClass (className : String) : AttributePredicate := fun attrs =>
  attrs.any fun a =>
    a.key == "class" && (a.value.split (fun c => c = ' ')).contains className

/-- `MatchResult` of `Internal/MatchResult.ts`. -/
inductive MatchResult where
  | MatchOk
  | MatchFail
  | MatchCull
  deriving Repr, DecidableEq

/-- `fromBoolean` of `Internal/MatchResult.ts`. -/
def MatchResult.fromBoolean (b : Bool) : MatchResult :=
  if b then .MatchOk else .MatchFail

/-- `semigroupMatchResult.concat`: any `Cull` wins, both `Ok` give `Ok`,
anything else is `Fail`. -/
def concatMatchResult : MatchResult → MatchResult → MatchResult
  | .MatchCull, _ => .MatchCull
  | _, .MatchCull => .MatchCull
  | .MatchOk, .MatchOk => .MatchOk
  | _, _ => .MatchFail

/-- `checkPredicates` of `Select.ts`: with no predicates, opening tags and
text match; with predicates, only an opening tag satisfying them all
matches. -/
def checkPredicates (token : Token) (predicates : List AttributePredicate) :
    MatchResult :=
  match predicates with
  | [] =>
    MatchResult.fromBoolean
      (match token with
        | .tagOpen _ _ => true
        | .tagClose _ => false
        | .text _ => true
        | .comment _ => false)
  | x :: xs =>
    MatchResult.fromBoolean
      (match token with
        | .tagOpen _ attrs => (x :: xs).all fun p => p attrs
        | .tagClose _ => false
        | .text _ => false
        | .comment _ => false)

/-- `checkTag` of `Select.ts`: the predicates must hold and the token must
be an opening tag whose name equals the selector's name
case-insensitively. -/
def checkTag (tagName : String) (predicates : List AttributePredicate)
    (info : TagInfo) : MatchResult :=
  concatMatchResult (checkPredicates info.token predicates)
    (MatchResult.fromBoolean
      (match info.token with
        | .tagOpen name _ => tagName.toLower == name.toLower
        | _ => false))

/-- The predicate `containsCurrent` inside `checkSettings`: a span is an
ancestor of `current` when it opens strictly before it and closes strictly
after it. -/
def containsCurrent (current : TagTree) (s : TagSpan) : Bool :=
  decide (s.start < current.value.start) && decide (current.value.endIdx < s.endIdx)

mutual

/-- Count the spans of a tree satisfying `p` (the `Tree.foldMap` of
`checkSettings` with the sum monoid). -/
def countT (p : TagSpan → Bool) : TagTree → Nat
  | .node v f => (if p v then 1 else 0) + countF p f

/-- Count the spans of a forest satisfying `p`. -/
def countF (p : TagSpan → Bool) : List TagTree → Nat
  | [] => 0
  | t :: ts => countT p t + countF p ts

end

/-- `checkSettings` of `Select.ts`: without a depth requirement the result
is `MatchOk`; otherwise the number of ancestors of the first root of the
current hierarchy is counted over the whole root forest and compared with
the required depth. -/
def checkSettings (settings : SelectSettings) (curr root : TagSpec) : MatchResult :=
  match settings.depth with
  | none => .MatchOk
  | some depth =>
    match curr.hierarchy with
    | [] => .MatchOk
    | current :: _ =>
      if (countF (containsCurrent current) root.hierarchy : Int) < depth then
        .MatchFail
      else if depth < (countF (containsCurrent current) root.hierarchy : Int) then
        .MatchCull
      else .MatchOk

/-- `nodeMatches` of `Select.ts`: combine the settings check with the
strategy check. -/
def nodeMatches (selection : Selection) (info : TagInfo) (curr root : TagSpec) :
    MatchResult :=
  match selection.strategy with
  | .selectOne t preds =>
    concatMatchResult (checkSettings selection.settings curr root)
      (checkTag t preds info)
  | .selectAny preds =>
    concatMatchResult (checkSettings selection.settings curr root)
      (checkPredicates info.token preds)
  | .selectText =>
    concatMatchResult (checkSettings selection.settings curr root)
      (MatchResult.fromBoolean
        (match info.token with
          | .tagOpen _ _ => false
          | .tagClose _ => false
          | .text _ => true
          | .comment _ => false))

/-- `recenter` of `Select.ts`: shift a child span so the parent starts at
zero. -/
def recenter (parent : TagSpan) (child : TagSpan) : TagSpan :=
  ⟨child.start - parent.start, child.endIdx - parent.start⟩

mutual

/-- Map a function over every span of a tree (`Tree.map`). -/
def mapSpanT (g : TagSpan → TagSpan) : TagTree → TagTree
  | .node v f => .node (g v) (mapSpanF g f)

/-- Map a function over every span of a forest. -/
def mapSpanF (g : TagSpan → TagSpan) : List TagTree → List TagTree
  | [] => []
  | t :: ts => mapSpanT g t :: mapSpanF g ts

end

/-- `shrinkSpecWith` of `Select.ts`: the emitted spec for a matched node —
the node's tree recentered at zero, and the token slice
`tags.slice(start, end + 1)`. -/
def shrinkSpecWith (spec : TagSpec) (parent : TagTree) : TagSpec :=
  ⟨spec.context,
    [mapSpanT (recenter parent.value) parent],
    (spec.tags.drop parent.value.start).take
      (parent.value.endIdx + 1 - parent.value.start)⟩

/-- `updateHierarchy` of `Select.ts`. -/
def updateHierarchy (curr : TagSpec) (hierarchy : List TagTree) : TagSpec :=
  ⟨curr.context, hierarchy, curr.tags⟩

/-- Reading `curr.tags[start]` as the source does.  On the well-formed
specs reachable from `select` the index is always in bounds; the total
model returns an inert text entry out of bounds. -/
def tagAt (tags : List TagInfo) (i : Nat) : TagInfo :=
  tags.getD i ⟨Token.text "", none⟩

/-- `liftSiblings` of `Select.ts`, with the bound on the number of nodes
of the result that makes the mutual recursion with `selectNodes`
terminating.  `liftAux s e F acc` scans `F`: a tree strictly inside
`(s, e)` is kept, a disjoint tree is dropped, and an overlapping tree `t`
causes the already-scanned result to be rescanned with `t.forest` as the
new base accumulator — exactly the fold of the source. -/
def liftAux (s e : Nat) : (F : List TagTree) → (acc : List TagTree) →
    {r : List TagTree // sizeF r ≤ sizeF F + sizeF acc}
  | [], acc => ⟨acc, by simp [sizeF]⟩
  | t :: ts, acc =>
    if s < t.value.start ∧ t.value.endIdx < e then
      let x := liftAux s e ts acc
      ⟨t :: x.val, by
        have := x.property
        simp only [sizeF]
        omega⟩
    else if e < t.value.start ∨ t.value.endIdx < s then
      let x := liftAux s e ts acc
      ⟨x.val, by
        have := x.property
        have := sizeT_pos t
        simp only [sizeF]
        omega⟩
    else
      let x := liftAux s e ts acc
      let y := liftAux s e x.val t.forest
      ⟨y.val, by
        have h1 := y.property
        have h2 := x.property
        have h3 := sizeT_eq t
        simp only [sizeF]
        omega⟩

termination_by F acc => sizeF F + sizeF acc
decreasing_by
  · simp only [sizeF]
    have := sizeT_pos t
    omega
  · simp only [sizeF]
    have := sizeT_pos t
    omega
  · simp only [sizeF]
    have := sizeT_pos t
    omega
  · have h2 := x.property
    have h3 := sizeT_eq t
    show sizeF x.val + sizeF t.forest < sizeF (t :: ts) + sizeF acc
    simp only [sizeF]
    omega

/-- `liftSiblings acc (start, end)` as an endomorphism of forests, exactly
as in `Select.ts`. -/
def liftSiblings (acc : List TagTree) (s e : Nat) (F : List TagTree) :
    List TagTree :=
  (liftAux s e F acc).val

theorem sizeF_liftSiblings_le (acc : List TagTree) (s e : Nat) (F : List TagTree) :
    sizeF (liftSiblings acc s e F) ≤ sizeF F + sizeF acc :=
  (liftAux s e F acc).property

/-- `selectNodes` of `Select.ts`: the accumulator-passing traversal that
collects a `TagSpec` for every node satisfying the selector chain. -/
def selectNodes (sels : Selector) (curr root : TagSpec) (acc : List TagSpec) :
    List TagSpec :=
  match sels with
  | [] => acc
  | n :: ns =>
    match hh : curr.hierarchy with
    | [] => acc
    | f :: fs =>
      if ns.isEmpty then
        match nodeMatches n (tagAt curr.tags f.value.start) curr root with
        | .MatchOk =>
          shrinkSpecWith curr f ::
            selectNodes [n] (updateHierarchy curr fs) root
              (selectNodes [n] (updateHierarchy curr f.forest) root acc)
        | .MatchCull => selectNodes [n] (updateHierarchy curr fs) root acc
        | .MatchFail =>
          selectNodes [n] (updateHierarchy curr f.forest) root
            (selectNodes [n] (updateHierarchy curr fs) root acc)
      else
        match nodeMatches n (tagAt curr.tags f.value.start) curr root with
        | .MatchOk =>
          selectNodes ns
            (updateHierarchy curr
              (f.forest ++ liftSiblings [] f.value.start f.value.endIdx fs))
            (updateHierarchy curr
              (f :: liftSiblings [] f.value.start f.value.endIdx fs))
            (selectNodes (n :: ns) (updateHierarchy curr fs) root acc)
        | .MatchCull => selectNodes (n :: ns) (updateHierarchy curr fs) root acc
        | .MatchFail =>
          selectNodes (n :: ns) (updateHierarchy curr f.forest) root
            (selectNodes (n :: ns) (updateHierarchy curr fs) root acc)
termination_by sizeF curr.hierarchy
decreasing_by
  all_goals
    simp only [updateHierarchy, hh, sizeF]
    have h1 := sizeT_pos f
    have h3 := sizeT_eq f
    have h4 := sizeF_liftSiblings_le [] f.value.start f.value.endIdx fs
    simp only [sizeF] at h4
    first
      | omega
      | (simp only [sizeF_append]; omega)

/-- `select` of `Select.ts`: run `selectNodes` from an empty accumulator
and re-index every produced spec with `context = {position: i,
inChroot: true}`. -/
def select (selector : Selector) (spec : TagSpec) : List TagSpec :=
  (selectNodes selector spec spec []).mapIdx fun p s =>
    ⟨⟨p, true⟩, s.hierarchy, s.tags⟩

/-!
## The emission order of `select`
-/

/-- The emission order realized by `selectNodes`, written without the
threaded accumulator.  Because every recursive call of `selectNodes`
prepends its matches to the accumulator it receives, the emitted list at a
node with a terminal `MatchOk` is: the node itself, then the matches from
the later sibling subtrees, and only then the matches from the node's own
children; at a terminal `MatchFail` the matches from the children precede
those of the later siblings. -/
def genEmit (sels : Selector) (curr root : TagSpec) : List TagSpec :=
  match sels with
  | [] => []
  | n :: ns =>
    match hh : curr.hierarchy with
    | [] => []
    | f :: fs =>
      if ns.isEmpty then
        match nodeMatches n (tagAt curr.tags f.value.start) curr root with
        | .MatchOk =>
          shrinkSpecWith curr f ::
            (genEmit [n] (updateHierarchy curr fs) root ++
              genEmit [n] (updateHierarchy curr f.forest) root)
        | .MatchCull => genEmit [n] (updateHierarchy curr fs) root
        | .MatchFail =>
          genEmit [n] (updateHierarchy curr f.forest) root ++
            genEmit [n] (updateHierarchy curr fs) root
      else
        match nodeMatches n (tagAt curr.tags f.value.start) curr root with
        | .MatchOk =>
          genEmit ns
            (updateHierarchy curr
              (f.forest ++ liftSiblings [] f.value.start f.value.endIdx fs))
            (updateHierarchy curr
              (f :: liftSiblings [] f.value.start f.value.endIdx fs)) ++
            genEmit (n :: ns) (updateHierarchy curr fs) root
        | .MatchCull => genEmit (n :: ns) (updateHierarchy curr fs) root
        | .MatchFail =>
          genEmit (n :: ns) (updateHierarchy curr f.forest) root ++
            genEmit (n :: ns) (updateHierarchy curr fs) root
termination_by sizeF curr.hierarchy
decreasing_by
  all_goals
    simp only [updateHierarchy, hh, sizeF]
    have h1 := sizeT_pos f
    have h3 := sizeT_eq f
    have h4 := sizeF_liftSiblings_le [] f.value.start f.value.endIdx fs
    simp only [sizeF] at h4
    first
      | omega
      | (simp only [sizeF_append]; omega)

/-- DFS pre-order emission as C1 states it: identical to `genEmit` except
that at a terminal `MatchOk` the node's descendants are emitted before the
later sibling subtrees. -/
def preEmit (sels : Selector) (curr root : TagSpec) : List TagSpec :=
  match sels with
  | [] => []
  | n :: ns =>
    match hh : curr.hierarchy with
    | [] => []
    | f :: fs =>
      if ns.isEmpty then
        match nodeMatches n (tagAt curr.tags f.value.start) curr root with
        | .MatchOk =>
          shrinkSpecWith curr f ::
            (preEmit [n] (updateHierarchy curr f.forest) root ++
              preEmit [n] (updateHierarchy curr fs) root)
        | .MatchCull => preEmit [n] (updateHierarchy curr fs) root
        | .MatchFail =>
          preEmit [n] (updateHierarchy curr f.forest) root ++
            preEmit [n] (updateHierarchy curr fs) root
      else
        match nodeMatches n (tagAt curr.tags f.value.start) curr root with
        | .MatchOk =>
          preEmit ns
            (updateHierarchy curr
              (f.forest ++ liftSiblings [] f.value.start f.value.endIdx fs))
            (updateHierarchy curr
              (f :: liftSiblings [] f.value.start f.value.endIdx fs)) ++
            preEmit (n :: ns) (updateHierarchy curr fs) root
        | .MatchCull => preEmit (n :: ns) (updateHierarchy curr fs) root
        | .MatchFail =>
          preEmit (n :: ns) (updateHierarchy curr f.forest) root ++
            preEmit (n :: ns) (updateHierarchy curr fs) root
termination_by sizeF curr.hierarchy
decreasing_by
  all_goals
    simp only [updateHierarchy, hh, sizeF]
    have h1 := sizeT_pos f
    have h3 := sizeT_eq f
    have h4 := sizeF_liftSiblings_le [] f.value.start f.value.endIdx fs
    simp only [sizeF] at h4
    first
      | omega
      | (simp only [sizeF_append]; omega)

theorem updateHierarchy_hierarchy (curr : TagSpec) (h : List TagTree) :
    (updateHierarchy curr h).hierarchy = h := rfl

/-- `selectNodes` only ever prepends to its accumulator, and what it
prepends is `genEmit`. -/
theorem selectNodes_eq_genEmit (sels : Selector) (curr root : TagSpec)
    (acc : List TagSpec) :
    selectNodes sels curr root acc = genEmit sels curr root ++ acc := by
  generalize hn : sizeF curr.hierarchy = n
  induction n using Nat.strong_induction_on generalizing sels curr root acc with
  | _ n ih =>
    match sels with
    | [] => rw [selectNodes, genEmit]; simp
    | n' :: ns =>
      rw [selectNodes, genEmit]
      cases hcurr : curr.hierarchy with
      | nil => simp
      | cons f fs =>
        have hsizes : sizeT f + sizeF fs = n := by
          rw [← hn, hcurr, sizeF_cons]
        have hf := sizeT_eq f
        have hfpos := sizeT_pos f
        have hsib := sizeF_liftSiblings_le [] f.value.start f.value.endIdx fs
        simp only [sizeF] at hsib
        by_cases hns : ns.isEmpty
        · simp only [hns, if_true]
          cases hm : nodeMatches n' (tagAt curr.tags f.value.start) curr root with
          | MatchOk =>
            show shrinkSpecWith curr f ::
                selectNodes [n'] (updateHierarchy curr fs) root
                  (selectNodes [n'] (updateHierarchy curr f.forest) root acc) =
              (shrinkSpecWith curr f ::
                (genEmit [n'] (updateHierarchy curr fs) root ++
                  genEmit [n'] (updateHierarchy curr f.forest) root)) ++ acc
            rw [ih (sizeF fs) (by omega) _ _ _ _ rfl]
            rw [ih (sizeF f.forest) (by omega) _ _ _ _ rfl]
            simp
          | MatchCull =>
            show selectNodes [n'] (updateHierarchy curr fs) root acc =
              genEmit [n'] (updateHierarchy curr fs) root ++ acc
            exact ih (sizeF fs) (by omega) _ _ _ _ rfl
          | MatchFail =>
            show selectNodes [n'] (updateHierarchy curr f.forest) root
                (selectNodes [n'] (updateHierarchy curr fs) root acc) =
              (genEmit [n'] (updateHierarchy curr f.forest) root ++
                genEmit [n'] (updateHierarchy curr fs) root) ++ acc
            rw [ih (sizeF f.forest) (by omega) _ _ _ _ rfl]
            rw [ih (sizeF fs) (by omega) _ _ _ _ rfl]
            simp
        · simp only [hns, if_false]
          cases hm : nodeMatches n' (tagAt curr.tags f.value.start) curr root with
          | MatchOk =>
            show selectNodes ns
                (updateHierarchy curr
                  (f.forest ++ liftSiblings [] f.value.start f.value.endIdx fs))
                (updateHierarchy curr
                  (f :: liftSiblings [] f.value.start f.value.endIdx fs))
                (selectNodes (n' :: ns) (updateHierarchy curr fs) root acc) =
              (genEmit ns
                (updateHierarchy curr
                  (f.forest ++ liftSiblings [] f.value.start f.value.endIdx fs))
                (updateHierarchy curr
                  (f :: liftSiblings [] f.value.start f.value.endIdx fs)) ++
                genEmit (n' :: ns) (updateHierarchy curr fs) root) ++ acc
            rw [ih (sizeF (f.forest ++ liftSiblings [] f.value.start f.value.endIdx fs))
              (by simp only [sizeF_append]; omega) _ _ _ _ rfl]
            rw [ih (sizeF fs) (by omega) _ _ _ _ rfl]
            simp
          | MatchCull =>
            show selectNodes (n' :: ns) (updateHierarchy curr fs) root acc =
              genEmit (n' :: ns) (updateHierarchy curr fs) root ++ acc
            exact ih (sizeF fs) (by omega) _ _ _ _ rfl
          | MatchFail =>
            show selectNodes (n' :: ns) (updateHierarchy curr f.forest) root
                (selectNodes (n' :: ns) (updateHierarchy curr fs) root acc) =
              (genEmit (n' :: ns) (updateHierarchy curr f.forest) root ++
                genEmit (n' :: ns) (updateHierarchy curr fs) root) ++ acc
            rw [ih (sizeF f.forest) (by omega) _ _ _ _ rfl]
            rw [ih (sizeF fs) (by omega) _ _ _ _ rfl]
            simp

/-- **C1 (amended).**  `select` emits exactly the list `genEmit`, with the
`i`-th emitted spec re-indexed to `context = {position: i, inChroot:
true}`.  The order realized by `genEmit` at a node where the terminal
selection matches is: the node itself first, then the matches from later
sibling subtrees, and then the matches from within the node's own
children — not DFS pre-order, where all of a node's descendants would
precede its later siblings. -/
theorem select_emission_order (sel : Selector) (spec : TagSpec) :
    select sel spec =
      (genEmit sel spec spec).mapIdx fun p s => ⟨⟨p, true⟩, s.hierarchy, s.tags⟩ := by
  rw [select, selectNodes_eq_genEmit]
  simp

/-- The annotated tokens of `<a><a>x</a></a><a>y</a>`. -/
def c1Tags : List TagInfo :=
  [⟨.tagOpen "a" [], some 4⟩, ⟨.tagOpen "a" [], some 2⟩, ⟨.text "x", none⟩,
    ⟨.tagClose "a", none⟩, ⟨.tagClose "a", none⟩, ⟨.tagOpen "a" [], some 2⟩,
    ⟨.text "y", none⟩, ⟨.tagClose "a", none⟩]

/-- The `TagSpec` of `<a><a>x</a></a><a>y</a>`: two root elements, the
first containing a nested element. -/
def c1Spec : TagSpec :=
  ⟨⟨0, false⟩,
    [.node ⟨0, 4⟩ [.node ⟨1, 3⟩ [.node ⟨2, 2⟩ []]], .node ⟨5, 7⟩ [.node ⟨6, 6⟩ []]],
    c1Tags⟩

/-- **C1 counterexample.**  On `<a><a>x</a></a><a>y</a>` with the
match-anything selector, `select` emits the outer first root, then the
second root, then the second root's text, then the nested element of the
first root, then its text — the descendants of the first root come after
the later sibling's matches, so the emission order is not DFS pre-order
(`preEmit`), even with the re-indexed contexts attached. -/
theorem select_preorder_counterexample :
    select anySel c1Spec ≠
      (preEmit anySel c1Spec c1Spec).mapIdx fun p s => ⟨⟨p, true⟩, s.hierarchy, s.tags⟩ := by
  intro h
  have h2 := congrArg (List.map fun s : TagSpec => s.tags.head?) h
  simp +decide [select, selectNodes, preEmit, nodeMatches, checkSettings,
    defaultSelectSettings, anySel, checkPredicates, concatMatchResult,
    MatchResult.fromBoolean, tagAt, shrinkSpecWith, updateHierarchy, mapSpanT,
    mapSpanF, recenter, TagTree.value, TagTree.forest, c1Spec, c1Tags] at h2

/-!
## The depth check (`checkSettings`)
-/

/-- The count the specification describes: the number of spans in the root
hierarchy that open strictly before and close strictly after the given
span. -/
def ancestorCount (root : TagSpec) (span : TagSpan) : Nat :=
  ((spansF root.hierarchy).filter fun s =>
    decide (s.start < span.start ∧ span.endIdx < s.endIdx)).length

theorem countF_eq_filter (p : TagSpan → Bool) (F : List TagTree) :
    countF p F = ((spansF F).filter p).length := by
  generalize hn : sizeF F = n
  induction n using Nat.strong_induction_on generalizing F with
  | _ n ih =>
    cases F with
    | nil => rw [countF]; rfl
    | cons t ts =>
      obtain ⟨v, f⟩ := t
      have h1 : countF p (TagTree.node v f :: ts) =
          ((if p v then 1 else 0) + countF p f) + countF p ts := rfl
      have h2 : spansF (TagTree.node v f :: ts) = (v :: spansF f) ++ spansF ts := rfl
      rw [h1, h2]
      rw [ih (sizeF f) (by rw [← hn]; simp only [sizeF, sizeT]; omega) f rfl]
      rw [ih (sizeF ts) (by rw [← hn]; simp only [sizeF, sizeT]; omega) ts rfl]
      rw [List.filter_append, List.length_append, List.filter_cons]
      by_cases hp : p v
      · simp [hp]
        omega
      · simp [hp]

/-- **C5.**  `checkSettings` returns `MatchOk` when no depth is required
or when the current hierarchy is empty; otherwise it compares the number
of ancestors of the first root — counted over every span of the root
forest as the specification describes — with the required depth:
`MatchFail` below it, `MatchCull` above it, `MatchOk` at it. -/
theorem checkSettings_depth_semantics (settings : SelectSettings)
    (curr root : TagSpec) :
    checkSettings settings curr root =
      match settings.depth, curr.hierarchy with
      | none, _ => MatchResult.MatchOk
      | some _, [] => MatchResult.MatchOk
      | some depth, current :: _ =>
        if (ancestorCount root current.value : Int) < depth then
          MatchResult.MatchFail
        else if depth < (ancestorCount root current.value : Int) then
          MatchResult.MatchCull
        else MatchResult.MatchOk := by
  have hbridge : ∀ current : TagTree,
      countF (containsCurrent current) root.hierarchy =
        ancestorCount root current.value := by
    intro current
    rw [countF_eq_filter, ancestorCount]
    congr 1
    apply List.filter_congr
    intro s _
    rw [containsCurrent]
    rw [show decide (s.start < current.value.start ∧
        current.value.endIdx < s.endIdx) =
      (decide (s.start < current.value.start) &&
        decide (current.value.endIdx < s.endIdx)) from by
      by_cases h1 : s.start < current.value.start <;>
        by_cases h2 : current.value.endIdx < s.endIdx <;>
          simp [h1, h2]]
  rw [checkSettings]
  cases hd : settings.depth with
  | none => rfl
  | some depth =>
    cases hc : curr.hierarchy with
    | nil => rfl
    | cons current rest =>
      show (if (countF (containsCurrent current) root.hierarchy : Int) < depth then
          MatchResult.MatchFail
        else if depth < (countF (containsCurrent current) root.hierarchy : Int) then
          MatchResult.MatchCull
        else MatchResult.MatchOk) =
        (if (ancestorCount root current.value : Int) < depth then
          MatchResult.MatchFail
        else if depth < (ancestorCount root current.value : Int) then
          MatchResult.MatchCull
        else MatchResult.MatchOk)
      rw [hbridge current]

/-!
## `nodeMatches` without a depth requirement (C10)
-/

theorem concat_eq_cull_iff (x y : MatchResult) :
    concatMatchResult x y = MatchResult.MatchCull ↔
      x = MatchResult.MatchCull ∨ y = MatchResult.MatchCull := by
  cases x <;> cases y <;> simp [concatMatchResult]

theorem fromBoolean_ne_cull (b : Bool) :
    MatchResult.fromBoolean b ≠ MatchResult.MatchCull := by
  cases b <;> simp [MatchResult.fromBoolean]

theorem checkPredicates_ne_cull (tok : Token) (preds : List AttributePredicate) :
    checkPredicates tok preds ≠ MatchResult.MatchCull := by
  rw [checkPredicates.eq_def]
  cases preds with
  | nil => exact fromBoolean_ne_cull _
  | cons p ps => exact fromBoolean_ne_cull _

theorem checkTag_ne_cull (t : String) (preds : List AttributePredicate)
    (info : TagInfo) : checkTag t preds info ≠ MatchResult.MatchCull := by
  rw [checkTag]
  intro h
  rcases (concat_eq_cull_iff _ _).mp h with h | h
  · exact checkPredicates_ne_cull _ _ h
  · exact fromBoolean_ne_cull _ h

/-- **C10.**  When a `Selection` carries no depth requirement,
`nodeMatches` never returns `MatchCull`: the settings check yields
`MatchOk` and every strategy check yields only `MatchOk` or `MatchFail`,
so the `MatchCull` pruning branch of the traversal is unreachable for
selectors built without `atDepth`. -/
theorem nodeMatches_no_cull_without_depth (selection : Selection)
    (info : TagInfo) (curr root : TagSpec)
    (h : selection.settings.depth = none) :
    nodeMatches selection info curr root ≠ MatchResult.MatchCull := by
  have hset : checkSettings selection.settings curr root = MatchResult.MatchOk := by
    rw [checkSettings, h]
  rw [nodeMatches]
  intro hcull
  cases hstrat : selection.strategy with
  | selectOne t preds =>
    rw [hstrat] at hcull
    rcases (concat_eq_cull_iff _ _).mp (by rw [← hcull]) with h' | h'
    · rw [hset] at h'
      exact MatchResult.noConfusion h'
    · exact checkTag_ne_cull _ _ _ h'
  | selectAny preds =>
    rw [hstrat] at hcull
    rcases (concat_eq_cull_iff _ _).mp (by rw [← hcull]) with h' | h'
    · rw [hset] at h'
      exact MatchResult.noConfusion h'
    · exact checkPredicates_ne_cull _ _ h'
  | selectText =>
    rw [hstrat] at hcull
    rcases (concat_eq_cull_iff _ _).mp (by rw [← hcull]) with h' | h'
    · rw [hset] at h'
      exact MatchResult.noConfusion h'
    · exact fromBoolean_ne_cull _ h'

/-- Witness for C10 at a concrete input. -/
theorem nodeMatches_no_cull_without_depth_witness :
    (Selection.mk SelectStrategy.selectText defaultSelectSettings).settings.depth =
        none ∧
      nodeMatches ⟨SelectStrategy.selectText, defaultSelectSettings⟩
          ⟨Token.text "x", none⟩ c1Spec c1Spec ≠
        MatchResult.MatchCull :=
  ⟨rfl,
    nodeMatches_no_cull_without_depth ⟨SelectStrategy.selectText, defaultSelectSettings⟩
      ⟨Token.text "x", none⟩ c1Spec c1Spec rfl⟩

/-!
## `hasClass` (C7)
-/

/-- Modelled from the claim: plain substring occurrence of `needle` in
`hay` (what `hasClass` is claimed, incorrectly, to test), read as the
characters of `needle` forming a contiguous infix of those of `hay`. -/
def substrOccurs (needle hay : String) : Bool :=
  decide (List.IsInfix needle.toList hay.toList)

/-- **C7 (amended).**  `hasClass c` holds on an attribute list exactly
when some attribute has key exactly `"class"` and `c` appears as a whole
space-separated word of its value — not merely as a plain substring. -/
theorem hasClass_iff (className : String) (attrs : List Attribute) :
    hasClass className attrs = true ↔
      ∃ a ∈ attrs, a.key = "class" ∧
        className ∈ a.value.split fun c => c = ' ' := by
  rw [hasClass, List.any_eq_true]
  constructor
  · rintro ⟨a, ha, hcond⟩
    rw [Bool.and_eq_true, beq_iff_eq] at hcond
    refine ⟨a, ha, hcond.1, ?_⟩
    have := hcond.2
    simpa using this
  · rintro ⟨a, ha, hkey, hmem⟩
    refine ⟨a, ha, ?_⟩
    rw [Bool.and_eq_true, beq_iff_eq]
    exact ⟨hkey, by simpa using hmem⟩

/-- **C7 counterexample.**  With `class="foobar"`, the class name `"foo"`
is a plain substring of the attribute value, yet `hasClass "foo"` does not
match: the code splits the value on spaces and requires exact membership,
so the claimed substring semantics is false. -/
theorem hasClass_substring_counterexample :
    ¬ (hasClass "foo" [⟨"class", "foobar"⟩] = true ↔
        ∃ a ∈ [(⟨"class", "foobar"⟩ : Attribute)],
          a.key = "class" ∧ substrOccurs "foo" a.value = true) := by
  intro h
  have h1 : hasClass "foo" [⟨"class", "foobar"⟩] = false := by
    rw [hasClass]
    simp only [List.any_cons, List.any_nil]
    rw [show ("foobar".split fun c => c = ' ') = ["foobar"] from by
      rw [String.split_of_valid]; decide]
    decide
  have h2 : ∃ a ∈ [(⟨"class", "foobar"⟩ : Attribute)],
      a.key = "class" ∧ substrOccurs "foo" a.value = true := by
    refine ⟨⟨"class", "foobar"⟩, List.mem_singleton.mpr rfl, rfl, ?_⟩
    rw [substrOccurs]
    decide
  rw [h1] at h
  exact Bool.noConfusion (h.mpr h2)

/-!
## The `Scraper` combinators (`Scraper.ts`)

A `Scraper` is a `ReaderOption` over `TagSpec`: a function from the spec
to an optional result (`Internal/ReaderOption.ts`).
-/

/-- `Scraper<A> = ReaderOption<TagSpec, A>`. -/
def Scraper (A : Type) : Type := TagSpec → Option A

/-- `RO.asks` of `Internal/ReaderOption.ts`. -/
def asks {A : Type} (f : TagSpec → A) : Scraper A := fun spec => some (f spec)

/-- `RO.fromOption` of `Internal/ReaderOption.ts`. -/
def roFromOption {A : Type} (ma : Option A) : Scraper A := fun _ => ma

/-- `RO.chain` of `Internal/ReaderOption.ts`. -/
def roChain {A B : Type} (f : A → Scraper B) (ma : Scraper A) : Scraper B :=
  fun r => (ma r).bind fun a => f a r

/-- `RO.chainOptionK` of `Internal/ReaderOption.ts`. -/
def roChainOptionK {A B : Type} (f : A → Option B) (ma : Scraper A) : Scraper B :=
  roChain (fun a => roFromOption (f a)) ma

/-- `withFirst` of `Scraper.ts`: map the selection results and keep the
first, if any. -/
def withFirst {A B : Type} (f : A → B) (as : List A) : Scraper B :=
  roFromOption (as.head?.map f)

/-- `showAttribute.show` of `Internal/Html/Tokenizer.ts`: a leading space,
the key, and the double-quoted value. -/
def showAttribute (a : Attribute) : String :=
  " " ++ a.key ++ "=\"" ++ a.value ++ "\""

/-- `showToken.show` of `Internal/Html/Tokenizer.ts`. The attribute list
of an opening tag is rendered by concatenating `showAttribute` over the
attributes in order (`RA.foldMap` with the string monoid). -/
def showToken : Token → String
  | .tagOpen name attrs =>
    "<" ++ name ++ (attrs.map showAttribute).foldr (· ++ ·) "" ++ ">"
  | .tagClose name => "</" ++ name ++ ">"
  | .text t => t
  | .comment c => "<!--" ++ c ++ "-->"

/-- `foldSpec` of `Scraper.ts` instantiated at the string monoid: render
every token of the spec and concatenate the results in order
(`RA.foldMap(monoidString)`). -/
def foldSpec (f : Token → String) (spec : TagSpec) : String :=
  (spec.tags.map fun info => f info.token).foldr (· ++ ·) ""

/-- `tagsToHtml` of `Scraper.ts`. -/
def tagsToHtml : TagSpec → String := foldSpec showToken

/-- `tagsToInnerHTML` of `Scraper.ts`: the empty string when the spec
holds fewer than two tokens, otherwise the rendering of
`tags.slice(1, len - 1)` — every token strictly between the first and the
last. -/
def tagsToInnerHTML (spec : TagSpec) : String :=
  if spec.tags.length < 2 then ""
  else
    tagsToHtml
      ⟨spec.context, spec.hierarchy,
        (spec.tags.drop 1).take (spec.tags.length - 1 - 1)⟩

/-- `getAttribute` of `Scraper.ts`: the value of the first attribute whose
key equals the given key exactly (`attr.key === key`). -/
def getAttribute (key : String) (attributes : List Attribute) : Option String :=
  (attributes.filterMap fun a =>
    if a.key = key then some a.value else none).head?

/-- `tagsToAttr` of `Scraper.ts`: the first token of the spec that is an
opening tag carrying the key yields its value (`RA.findFirstMap`). -/
def tagsToAttr (key : String) (spec : TagSpec) : Option String :=
  spec.tags.findSome? fun info =>
    match info.token with
    | .tagOpen _ attrs => getAttribute key attrs
    | _ => none

/-- `html` of `Scraper.ts`. -/
def html (selector : Selector) : Scraper String :=
  roChain (withFirst tagsToHtml) (asks (select selector))

/-- `innerHTML` of `Scraper.ts`. -/
def innerHTML (selector : Selector) : Scraper String :=
  roChain (withFirst tagsToInnerHTML) (asks (select selector))

/-- `attr` of `Scraper.ts`: map `tagsToAttr` over the selection, compact
the hits and keep the first. -/
def attr (key : String) (selector : Selector) : Scraper String :=
  roChainOptionK
    (fun specs => ((specs.map (tagsToAttr key)).reduceOption).head?)
    (asks (select selector))

/-!
## The inner-HTML law (C6)
-/

theorem foldr_str_base (xs : List String) (y : String) :
    xs.foldr (· ++ ·) y = xs.foldr (· ++ ·) "" ++ y := by
  induction xs with
  | nil => simp
  | cons x l ih =>
    simp only [List.foldr_cons, ih, String.append_assoc]

theorem foldr_str_snoc (xs : List String) (y : String) :
    (xs ++ [y]).foldr (· ++ ·) "" = xs.foldr (· ++ ·) "" ++ y := by
  rw [List.foldr_append]
  simp only [List.foldr_cons, List.foldr_nil]
  rw [show (y ++ "") = y from by simp]
  exact foldr_str_base xs y

/-- A list of length at least two with known first and last elements
splits as first, middle, last — and the middle is exactly the
`slice(1, len - 1)` that `tagsToInnerHTML` takes. -/
theorem exists_mid {α : Type} (l : List α) (a b : α)
    (hf : l.head? = some a) (hl : l.getLast? = some b) (h2 : 2 ≤ l.length) :
    ∃ mid, l = a :: (mid ++ [b]) ∧ (l.drop 1).take (l.length - 1 - 1) = mid := by
  cases l with
  | nil => exact Option.noConfusion hf
  | cons x xs =>
    have hx : a = x := by
      have := hf
      simp only [List.head?_cons, Option.some_inj] at this
      exact this.symm
    subst hx
    have hxs : xs ≠ [] := by
      intro h0
      subst h0
      simp at h2
    refine ⟨xs.dropLast, ?_, ?_⟩
    · have h1 : (a :: xs).getLast? =
          some ((a :: xs).getLast (List.cons_ne_nil a xs)) :=
        List.getLast?_eq_getLast _ _
      rw [h1] at hl
      have h3 : (a :: xs).getLast (List.cons_ne_nil a xs) = xs.getLast hxs :=
        List.getLast_cons hxs
      have hb : xs.getLast hxs = b := by
        rw [← h3]
        exact Option.some_inj.mp hl
      conv_lhs => rw [← List.dropLast_append_getLast hxs]
      rw [hb]
    · show ((a :: xs).drop 1).take ((a :: xs).length - 1 - 1) = xs.dropLast
      rw [List.dropLast_eq_take]
      simp only [List.drop_succ_cons, List.drop_zero, List.length_cons]
      congr 1

/-- **C6.**  Whenever `select` produces at least one spec and that spec
holds at least two tokens, `html` renders exactly the first token, then
the inner HTML, then the last token; `innerHTML` renders exactly the
tokens strictly between them; and on any spec holding fewer than two
tokens the inner HTML is the empty string. -/
theorem html_innerHTML_law (sel : Selector) (spec spec₀ : TagSpec)
    (tf tl : TagInfo)
    (h : (select sel spec).head? = some spec₀)
    (hf : spec₀.tags.head? = some tf)
    (hl : spec₀.tags.getLast? = some tl)
    (hlen : 2 ≤ spec₀.tags.length) :
    html sel spec =
      some (showToken tf.token ++ tagsToInnerHTML spec₀ ++ showToken tl.token) ∧
    innerHTML sel spec = some (tagsToInnerHTML spec₀) ∧
    ∀ s : TagSpec, s.tags.length < 2 → tagsToInnerHTML s = "" := by
  have hhtml : html sel spec = ((select sel spec).head?).map tagsToHtml := rfl
  have hinner :
      innerHTML sel spec = ((select sel spec).head?).map tagsToInnerHTML := rfl
  have hempty : ∀ s : TagSpec, s.tags.length < 2 → tagsToInnerHTML s = "" := by
    intro s hs
    rw [tagsToInnerHTML, if_pos hs]
  obtain ⟨mid, hdec, hmid⟩ := exists_mid spec₀.tags tf tl hf hl hlen
  have hIH : tagsToInnerHTML spec₀ =
      (mid.map fun info => showToken info.token).foldr (· ++ ·) "" := by
    rw [tagsToInnerHTML, if_neg (by omega)]
    show (((spec₀.tags.drop 1).take (spec₀.tags.length - 1 - 1)).map
        fun info => showToken info.token).foldr (· ++ ·) "" = _
    rw [hmid]
  have hH : tagsToHtml spec₀ =
      showToken tf.token ++ (tagsToInnerHTML spec₀ ++ showToken tl.token) := by
    show (spec₀.tags.map fun info => showToken info.token).foldr (· ++ ·) "" = _
    rw [hdec]
    simp only [List.map_cons, List.map_append, List.map_nil, List.foldr_cons]
    rw [foldr_str_snoc, hIH]
  refine ⟨?_, ?_, hempty⟩
  · rw [hhtml, h, Option.map_some', hH]
    simp [String.append_assoc]
  · rw [hinner, h, Option.map_some']

/-- The annotated tokens of `<a>x</a>`. -/
def c6Tags : List TagInfo :=
  [⟨.tagOpen "a" [], some 2⟩, ⟨.text "x", none⟩, ⟨.tagClose "a", none⟩]

/-- The `TagSpec` of `<a>x</a>`. -/
def c6Spec : TagSpec :=
  ⟨⟨0, false⟩, [.node ⟨0, 2⟩ [.node ⟨1, 1⟩ []]], c6Tags⟩

/-- The first spec selected from `c6Spec` by the match-anything
selector. -/
def c6Head : TagSpec :=
  ⟨⟨0, true⟩, [.node ⟨0, 2⟩ [.node ⟨1, 1⟩ []]], c6Tags⟩

/-- Witness for C6 at a concrete input: on `<a>x</a>` with the
match-anything selector, the first selected spec holds all three tokens,
and `html` renders `<a>`, the inner HTML, and `</a>`. -/
theorem html_innerHTML_law_witness :
    ((select anySel c6Spec).head? = some c6Head ∧
      c6Head.tags.head? = some ⟨Token.tagOpen "a" [], some 2⟩ ∧
      c6Head.tags.getLast? = some ⟨Token.tagClose "a", none⟩ ∧
      2 ≤ c6Head.tags.length) ∧
    (html anySel c6Spec =
        some (showToken (Token.tagOpen "a" []) ++ tagsToInnerHTML c6Head ++
          showToken (Token.tagClose "a")) ∧
      innerHTML anySel c6Spec = some (tagsToInnerHTML c6Head) ∧
      ∀ s : TagSpec, s.tags.length < 2 → tagsToInnerHTML s = "") := by
  have h1 : (select anySel c6Spec).head? = some c6Head := by
    simp +decide [select, selectNodes, nodeMatches, checkSettings,
      defaultSelectSettings, anySel, checkPredicates, concatMatchResult,
      MatchResult.fromBoolean, tagAt, shrinkSpecWith, updateHierarchy, mapSpanT,
      mapSpanF, recenter, TagTree.value, TagTree.forest, c6Spec, c6Tags, c6Head]
  have h2 : c6Head.tags.head? = some ⟨Token.tagOpen "a" [], some 2⟩ := by decide
  have h3 : c6Head.tags.getLast? = some ⟨Token.tagClose "a", none⟩ := by decide
  have h4 : 2 ≤ c6Head.tags.length := by decide
  exact ⟨⟨h1, h2, h3, h4⟩,
    html_innerHTML_law anySel c6Spec c6Head ⟨Token.tagOpen "a" [], some 2⟩
      ⟨Token.tagClose "a", none⟩ h1 h2 h3 h4⟩

/-!
## Attribute lookup (`attr`, C8)
-/

theorem getAttribute_eq_find (key : String) (attrs : List Attribute) :
    getAttribute key attrs =
      (attrs.find? fun a => a.key == key).map fun a => a.value := by
  induction attrs with
  | nil => rfl
  | cons a as ih =>
    by_cases hk : a.key = key
    · simp [getAttribute, List.filterMap_cons, List.find?_cons, hk]
    · have : getAttribute key (a :: as) = getAttribute key as := by
        simp [getAttribute, List.filterMap_cons, hk]
      rw [this, ih]
      simp [List.find?_cons, hk]

/-- **C8 (amended).**  `attr key sel` keeps, for each selected spec, the
first opening tag holding an attribute whose key equals `key` *exactly*
(case-sensitively, `attr.key === key`), takes that attribute's value, and
returns the first such value over the selection — there is no
case-insensitive key matching. -/
theorem attr_exact_key_semantics (key : String) (sel : Selector)
    (spec : TagSpec) :
    attr key sel spec =
      (((select sel spec).map fun s =>
          s.tags.findSome? fun info =>
            match info.token with
            | Token.tagOpen _ attrs =>
              (attrs.find? fun a => a.key == key).map fun a => a.value
            | _ => none).reduceOption).head? := by
  have h0 : attr key sel spec =
      (((select sel spec).map (tagsToAttr key)).reduceOption).head? := rfl
  rw [h0]
  have hfun : tagsToAttr key = fun s : TagSpec =>
      s.tags.findSome? fun info =>
        match info.token with
        | Token.tagOpen _ attrs =>
          (attrs.find? fun a => a.key == key).map fun a => a.value
        | _ => none := by
    funext s
    rw [tagsToAttr]
    congr 1
    funext info
    cases htok : info.token <;> simp [getAttribute_eq_find]
  rw [hfun]

/-- Case-insensitive string equality, modelled from the claim's phrase
"compared case-insensitively": the two strings agree letter by letter
once every character is lowered. -/
def eqCaseInsensitive (a b : String) : Bool :=
  a.toList.map Char.toLower == b.toList.map Char.toLower

/-- The annotated tokens of `<a KEY="v">x</a>`. -/
def c8Tags : List TagInfo :=
  [⟨.tagOpen "a" [⟨"KEY", "v"⟩], some 2⟩, ⟨.text "x", none⟩,
    ⟨.tagClose "a", none⟩]

/-- The `TagSpec` of `<a KEY="v">x</a>`. -/
def c8Spec : TagSpec :=
  ⟨⟨0, false⟩, [.node ⟨0, 2⟩ [.node ⟨1, 1⟩ []]], c8Tags⟩

/-- **C8 counterexample.**  On `<a KEY="v">x</a>`, a selected spec's
opening tag carries an attribute whose key `"KEY"` equals `"key"`
case-insensitively with value `"v"`, so the claimed case-insensitive
policy would return that value — yet `attr "key"` returns `none`,
because `getAttribute` compares keys with `===`. -/
theorem attr_case_insensitive_counterexample :
    (∃ s ∈ select anySel c8Spec, ∃ info ∈ s.tags, ∃ name attrs,
        info.token = Token.tagOpen name attrs ∧
        ∃ a ∈ attrs, eqCaseInsensitive a.key "key" = true ∧ a.value = "v") ∧
    attr "key" anySel c8Spec = none := by
  have hsel : select anySel c8Spec =
      [⟨⟨0, true⟩, [.node ⟨0, 2⟩ [.node ⟨1, 1⟩ []]], c8Tags⟩,
        ⟨⟨1, true⟩, [.node ⟨0, 0⟩ []], [⟨.text "x", none⟩]⟩] := by
    simp +decide [select, selectNodes, nodeMatches, checkSettings,
      defaultSelectSettings, anySel, checkPredicates, concatMatchResult,
      MatchResult.fromBoolean, tagAt, shrinkSpecWith, updateHierarchy, mapSpanT,
      mapSpanF, recenter, TagTree.value, TagTree.forest, c8Spec, c8Tags]
  constructor
  · refine ⟨⟨⟨0, true⟩, [.node ⟨0, 2⟩ [.node ⟨1, 1⟩ []]], c8Tags⟩, ?_,
      ⟨.tagOpen "a" [⟨"KEY", "v"⟩], some 2⟩, ?_, "a", [⟨"KEY", "v"⟩], rfl,
      ⟨"KEY", "v"⟩, ?_, ?_, rfl⟩
    · rw [hsel]
      exact List.mem_cons_self _ _
    · decide
    · decide
    · decide
  · have h0 : attr "key" anySel c8Spec =
        (((select anySel c8Spec).map (tagsToAttr "key")).reduceOption).head? :=
      rfl
    rw [h0, hsel]
    decide

/-!
## The serial scraper (`SerialScraper.ts`, C9)

A `SerialScraper` is a `StateOption` over a zipper of optional specs
(`Internal/StateOption.ts`): a function from the state to an optional
pair of result and next state, where a failing computation yields `none`
and thus commits no state at all — any surrounding combinator (such as
`SO.alt`) resumes from the state the computation was given.
-/

/-- `StateOption<S, A>` of `Internal/StateOption.ts`:
`(s: S) => Option<[A, S]>`. -/
def StateOption (S A : Type) : Type := S → Option (A × S)

/-- `SO.get`. -/
def soGet (S : Type) : StateOption S S := fun s => some (s, s)

/-- `SO.put`. -/
def soPut {S : Type} (s : S) : StateOption S Unit := fun _ => some ((), s)

/-- `SO.fromOption`: a `none` fails outright, a `some` succeeds leaving
the state untouched. -/
def soFromOption {S A : Type} (ma : Option A) : StateOption S A :=
  fun s =>
    match ma with
    | none => none
    | some a => some (a, s)

/-- `SO.map`. -/
def soMap {S A B : Type} (f : A → B) (fa : StateOption S A) : StateOption S B :=
  fun s => (fa s).map fun p => (f p.1, p.2)

/-- `SO.chain`: run the first computation, feed its value and its output
state to the second; a `none` anywhere short-circuits to `none`. -/
def soChain {S A B : Type} (f : A → StateOption S B) (ma : StateOption S A) :
    StateOption S B :=
  fun s => (ma s).bind fun p => f p.1 p.2

/-- `SO.chainOptionK`. -/
def soChainOptionK {S A B : Type} (f : A → Option B) (ma : StateOption S A) :
    StateOption S B :=
  soChain (fun a => soFromOption (f a)) ma

/-- The zipper of `fp-ts-contrib/Zipper` as the specification describes
it: the elements to the left of the focus, the focus, and the elements to
its right. -/
structure Zipper (A : Type) where
  lefts : List A
  focus : A
  rights : List A

/-- `SpecZipper` of `SerialScraper.ts`: a zipper of *optional* specs, so
that both ends of the sibling sequence can be padded with `none`
sentinels. -/
abbrev SpecZipper := Zipper (Option TagSpec)

/-- `SerialScraper<A> = StateOption<SpecZipper, A>`. -/
def SerialScraper (A : Type) : Type := StateOption SpecZipper A

/-- `Z.up`, modelled from the specification (the library code is not part
of this repository): move the focus one element to the left, failing when
nothing is to the left. -/
def zUp {A : Type} (z : Zipper A) : Option (Zipper A) :=
  match z.lefts.getLast? with
  | none => none
  | some x => some ⟨z.lefts.dropLast, x, z.focus :: z.rights⟩

/-- `Z.down`, modelled from the specification (the library code is not
part of this repository): move the focus one element to the right,
failing when nothing is to the right. -/
def zDown {A : Type} (z : Zipper A) : Option (Zipper A) :=
  match z.rights with
  | [] => none
  | r :: rs => some ⟨z.lefts ++ [z.focus], r, rs⟩

/-- `stepWith` of `SerialScraper.ts`: read the zipper, apply `move`,
unwrap the new focus, run the scraper on it, and only then `put` the
moved zipper — each stage through the short-circuiting `StateOption`
bind. -/
def stepWith {A : Type} (move : SpecZipper → Option SpecZipper)
    (scraper : Scraper A) : SerialScraper A :=
  soChain (fun r => soMap (fun _ => r.2.2) (soPut r.1))
    (soChain (fun r => soMap (fun value => (r.1, r.2, value))
        (soFromOption (scraper r.2)))
      (soChain (fun next => soMap (fun focus => (next, focus))
          (soFromOption next.focus))
        (soChainOptionK move (soGet SpecZipper))))

/-- `stepBack` of `SerialScraper.ts`. -/
def stepBack {A : Type} (scraper : Scraper A) : SerialScraper A :=
  stepWith zUp scraper

/-- `stepNext` of `SerialScraper.ts`. -/
def stepNext {A : Type} (scraper : Scraper A) : SerialScraper A :=
  stepWith zDown scraper

/-- **C9.**  `stepWith` is atomic: started on zipper `z`, it yields
`none` — committing no state, so the surrounding computation still holds
the pre-step zipper `z` — exactly when the move fails on `z`, or the
moved-to focus is the `none` sentinel, or the inner scraper fails on the
focused spec; and when all three succeed it yields the scraped value
paired with the moved zipper, which is committed only then. -/
theorem stepWith_atomic {A : Type} (move : SpecZipper → Option SpecZipper)
    (scraper : Scraper A) (z : SpecZipper) :
    stepWith move scraper z =
      match move z with
      | none => none
      | some next =>
        match next.focus with
        | none => none
        | some spec =>
          match scraper spec with
          | none => none
          | some v => some (v, next) := by
  cases hm : move z with
  | none =>
    simp [stepWith, soChain, soChainOptionK, soFromOption, soMap, soGet,
      soPut, hm]
  | some next =>
    cases hf : next.focus with
    | none =>
      simp [stepWith, soChain, soChainOptionK, soFromOption, soMap, soGet,
        soPut, hm, hf]
    | some spec =>
      cases hs : scraper spec with
      | none =>
        simp [stepWith, soChain, soChainOptionK, soFromOption, soMap, soGet,
          soPut, hm, hf, hs]
      | some v =>
        simp [stepWith, soChain, soChainOptionK, soFromOption, soMap, soGet,
          soPut, hm, hf, hs]

end Scalpel
